import Mathlib

/-!
# Verification of `parquet-analyzer` against its specification

This file gives a shallow embedding, in Lean 4, of the parts of the
`parquet-analyzer` repository that the frozen claims C1–C10 talk about,
and settles each claim against that embedding.

Conventions of the embedding:
* Python `bytes` values are `List Nat`, one entry per byte (each `< 256`
  for well-formed byte strings; hypotheses state this where needed).
* Python `int` is `Int`; Python `Decimal(i).scaleb(-s)` (always exact in
  the code under study) is the pair `(i, s)` meaning `i * 10 ^ (-s)`.
* Python dictionaries that are only ever read through `get`/`in` are
  structures of `Option` fields; insertion-ordered dicts that are built
  up incrementally are association lists.
* Logging (`logger.warning`) is modelled, where a claim mentions it, as
  an extra boolean component of the result ("a warning was logged").
* Functions that can raise exceptions on the inputs a claim quantifies
  over return `Option`/`Except`; `none`/`.error` means "raises".
-/

namespace ParquetAnalyzer

/-! ## Byte-string arithmetic

Models of CPython's `int.from_bytes` / `int.to_bytes` and of
`struct.pack`/`struct.unpack` for the little-endian integer formats,
on `List Nat` byte strings (most significant byte first for the
big-endian views).
-/

/-- Big-endian unsigned value of a byte string (`int.from_bytes(b, "big")`). -/
def bytesToNatBE : List Nat → Nat
  | [] => 0
  | b :: rest => b * 256 ^ rest.length + bytesToNatBE rest

/-- Little-endian unsigned value of a byte string (`int.from_bytes(b, "little")`). -/
def bytesToNatLE (l : List Nat) : Nat :=
  bytesToNatBE l.reverse

/-- `len`-byte big-endian representation of `n % 256^len`
(the unsigned core of `int.to_bytes`). -/
def natToBytesBE : Nat → Nat → List Nat
  | 0, _ => []
  | len + 1, n => natToBytesBE len (n / 256) ++ [n % 256]

/-- Signed big-endian reading of a byte string
(`int.from_bytes(b, "big", signed=True)`). -/
def bytesToIntBE (l : List Nat) : Int :=
  if bytesToNatBE l < 2 ^ (8 * l.length - 1) then (bytesToNatBE l : Int)
  else (bytesToNatBE l : Int) - 2 ^ (8 * l.length)

/-- Signed little-endian reading of a byte string
(`int.from_bytes(b, "little", signed=True)`). -/
def bytesToIntLE (l : List Nat) : Int :=
  bytesToIntBE l.reverse

/-- `len`-byte big-endian two's-complement representation of `i`
(`i.to_bytes(len, "big", signed=True)`; the callers in this development
always pass a length that fits, so the overflow check is not modelled). -/
def intToBytesBE (len : Nat) (i : Int) : List Nat :=
  natToBytesBE len (i.emod (2 ^ (8 * len))).toNat

/-- `len`-byte little-endian two's-complement representation of `i`
(e.g. `struct.pack("<i", i)` is `intToBytesLE 4 i`). -/
def intToBytesLE (len : Nat) (i : Int) : List Nat :=
  (intToBytesBE len i).reverse

theorem bytesToNatBE_cons (x : Nat) (xs : List Nat) :
    bytesToNatBE (x :: xs) = x * 256 ^ xs.length + bytesToNatBE xs := rfl

theorem bytesToNatBE_append_singleton (l : List Nat) (b : Nat) :
    bytesToNatBE (l ++ [b]) = bytesToNatBE l * 256 + b := by
  induction l with
  | nil => simp [bytesToNatBE]
  | cons x xs ih =>
    rw [List.cons_append, bytesToNatBE_cons, bytesToNatBE_cons, ih,
      List.length_append, List.length_singleton, pow_succ]
    ring

theorem natToBytesBE_length (len n : Nat) : (natToBytesBE len n).length = len := by
  induction len generalizing n with
  | zero => rfl
  | succ k ih => simp [natToBytesBE, ih]

theorem natToBytesBE_lt (len n : Nat) : ∀ x ∈ natToBytesBE len n, x < 256 := by
  induction len generalizing n with
  | zero => simp [natToBytesBE]
  | succ k ih =>
    intro x hx
    simp only [natToBytesBE, List.mem_append, List.mem_singleton] at hx
    rcases hx with h | h
    · exact ih _ x h
    · subst h; exact Nat.mod_lt _ (by norm_num)

theorem bytesToNatBE_natToBytesBE (len n : Nat) :
    bytesToNatBE (natToBytesBE len n) = n % 256 ^ len := by
  induction len generalizing n with
  | zero => simp [natToBytesBE, bytesToNatBE, Nat.mod_one]
  | succ k ih =>
    rw [natToBytesBE, bytesToNatBE_append_singleton, ih, pow_succ', Nat.mod_mul]
    ring

theorem natToBytesBE_bytesToNatBE (l : List Nat) (h : ∀ x ∈ l, x < 256) :
    natToBytesBE l.length (bytesToNatBE l) = l := by
  induction l using List.reverseRecOn with
  | nil => rfl
  | append_singleton xs b ih =>
    have hb : b < 256 := h b (by simp)
    have hxs : ∀ x ∈ xs, x < 256 := fun x hx => h x (by simp [hx])
    rw [bytesToNatBE_append_singleton, List.length_append, List.length_singleton,
      natToBytesBE]
    have hdiv : (bytesToNatBE xs * 256 + b) / 256 = bytesToNatBE xs := by omega
    have hmod : (bytesToNatBE xs * 256 + b) % 256 = b := by omega
    rw [hdiv, hmod, ih hxs]

theorem bytesToNatBE_lt_pow (l : List Nat) (h : ∀ x ∈ l, x < 256) :
    bytesToNatBE l < 256 ^ l.length := by
  induction l with
  | nil => simp [bytesToNatBE]
  | cons x xs ih =>
    have hx : x < 256 := h x (by simp)
    have hxs := ih (fun y hy => h y (by simp [hy]))
    simp only [bytesToNatBE_cons, List.length_cons, pow_succ]
    calc x * 256 ^ xs.length + bytesToNatBE xs
        < x * 256 ^ xs.length + 256 ^ xs.length := by omega
      _ = (x + 1) * 256 ^ xs.length := by ring
      _ ≤ 256 * 256 ^ xs.length := Nat.mul_le_mul_right _ (by omega)
      _ = 256 ^ xs.length * 256 := by ring

/-- Two-hundred-fifty-six to the length, rewritten in base 2. -/
theorem pow256_eq_pow2 (n : Nat) : 256 ^ n = 2 ^ (8 * n) := by
  rw [show (256 : Nat) = 2 ^ 8 by norm_num, ← pow_mul]

theorem pow256_eq_pow2_int (n : Nat) : (256 : Int) ^ n = 2 ^ (8 * n) := by
  rw [show (256 : Int) = 2 ^ 8 by norm_num, ← pow_mul]

/-- Signed round-trip, encode-then-decode direction: any `i` in the signed
range of `len ≥ 1` bytes is recovered by the signed reading. -/
theorem bytesToIntBE_intToBytesBE (len : Nat) (i : Int)
    (hlen : 1 ≤ len)
    (hlo : -(2 ^ (8 * len - 1)) ≤ i) (hhi : i < 2 ^ (8 * len - 1)) :
    bytesToIntBE (intToBytesBE len i) = i := by
  have hsplit : (2 : Int) ^ (8 * len) = 2 ^ (8 * len - 1) * 2 := by
    rw [← pow_succ]
    congr 1
    omega
  have hposmod : (0 : Int) < 2 ^ (8 * len) := by positivity
  have hnn : 0 ≤ i.emod (2 ^ (8 * len)) := Int.emod_nonneg i (by positivity)
  have hlt : i.emod (2 ^ (8 * len)) < 2 ^ (8 * len) := Int.emod_lt_of_pos i hposmod
  have huint : (((i.emod (2 ^ (8 * len))).toNat : Nat) : Int) = i.emod (2 ^ (8 * len)) :=
    Int.toNat_of_nonneg hnn
  set u : Nat := (i.emod (2 ^ (8 * len))).toNat with hu
  have hult : u < 256 ^ len := by
    have h1 : (u : Int) < (256 : Int) ^ len := by
      rw [pow256_eq_pow2_int, huint]
      exact hlt
    have h2 : ((256 ^ len : Nat) : Int) = (256 : Int) ^ len := by push_cast; ring
    omega
  have hval : bytesToNatBE (natToBytesBE len u) = u := by
    rw [bytesToNatBE_natToBytesBE, Nat.mod_eq_of_lt hult]
  have hlenl : (natToBytesBE len u).length = len := natToBytesBE_length _ _
  have hcasthalf : ((2 ^ (8 * len - 1) : Nat) : Int) = (2 : Int) ^ (8 * len - 1) := by
    push_cast; ring
  have hcastfull : ((2 ^ (8 * len) : Nat) : Int) = (2 : Int) ^ (8 * len) := by
    push_cast; ring
  show bytesToIntBE (natToBytesBE len u) = i
  unfold bytesToIntBE
  rw [hval, hlenl]
  rcases le_or_lt 0 i with hpos | hneg
  · have hiemod : i.emod (2 ^ (8 * len)) = i := by
      apply Int.emod_eq_of_lt hpos
      calc i < 2 ^ (8 * len - 1) := hhi
        _ ≤ 2 ^ (8 * len) := pow_le_pow_right₀ (by norm_num) (by omega)
    have hui : (u : Int) = i := by rw [huint, hiemod]
    have hcond : u < 2 ^ (8 * len - 1) := by omega
    rw [if_pos hcond, hui]
  · have hiemod : i.emod (2 ^ (8 * len)) = i + 2 ^ (8 * len) := by
      have h1 := Int.add_mul_emod_self_left (a := i) (b := 2 ^ (8 * len)) (c := 1)
      rw [mul_one] at h1
      show i % (2 ^ (8 * len)) = i + 2 ^ (8 * len)
      rw [← h1]
      apply Int.emod_eq_of_lt
      · omega
      · omega
    have hui : (u : Int) = i + 2 ^ (8 * len) := by rw [huint, hiemod]
    have hcond : ¬ u < 2 ^ (8 * len - 1) := by omega
    rw [if_neg hcond]
    omega

/-- Signed round-trip, decode-then-encode direction: a nonempty byte string of
well-formed bytes is recovered by re-encoding its signed value at its own
length. -/
theorem intToBytesBE_bytesToIntBE (l : List Nat)
    (h : ∀ x ∈ l, x < 256) :
    intToBytesBE l.length (bytesToIntBE l) = l := by
  have hult : bytesToNatBE l < 256 ^ l.length := bytesToNatBE_lt_pow l h
  have hcastfull : ((256 ^ l.length : Nat) : Int) = (2 : Int) ^ (8 * l.length) := by
    rw [← pow256_eq_pow2_int]
    push_cast
    ring
  have hemod : (bytesToIntBE l).emod (2 ^ (8 * l.length)) = (bytesToNatBE l : Int) := by
    unfold bytesToIntBE
    by_cases hc : bytesToNatBE l < 2 ^ (8 * l.length - 1)
    · rw [if_pos hc]
      apply Int.emod_eq_of_lt
      · positivity
      · omega
    · rw [if_neg hc]
      have h1 := Int.add_mul_emod_self_left
        (a := (bytesToNatBE l : Int)) (b := 2 ^ (8 * l.length)) (c := -1)
      rw [mul_neg_one, ← sub_eq_add_neg] at h1
      show ((bytesToNatBE l : Int) - 2 ^ (8 * l.length)) % (2 ^ (8 * l.length))
        = (bytesToNatBE l : Int)
      rw [h1]
      apply Int.emod_eq_of_lt
      · positivity
      · omega
  unfold intToBytesBE
  rw [hemod, Int.toNat_natCast]
  exact natToBytesBE_bytesToNatBE l h

/-- Bounds of the signed big-endian reading of a well-formed byte string. -/
theorem bytesToIntBE_bounds (l : List Nat) (h : ∀ x ∈ l, x < 256) :
    -(2 ^ (8 * l.length - 1)) ≤ bytesToIntBE l ∧
      bytesToIntBE l < 2 ^ (8 * l.length - 1) := by
  have hult : bytesToNatBE l < 256 ^ l.length := bytesToNatBE_lt_pow l h
  have hcastfull : ((256 ^ l.length : Nat) : Int) = (2 : Int) ^ (8 * l.length) := by
    rw [← pow256_eq_pow2_int]
    push_cast
    ring
  have hcasthalf : ((2 ^ (8 * l.length - 1) : Nat) : Int)
      = (2 : Int) ^ (8 * l.length - 1) := by push_cast; ring
  rcases Nat.eq_zero_or_pos l.length with h0 | hpos
  · have hnil : l = [] := List.length_eq_zero.mp h0
    subst hnil
    norm_num [bytesToIntBE, bytesToNatBE]
  have hsplit : (2 : Int) ^ (8 * l.length) = 2 ^ (8 * l.length - 1) * 2 := by
    rw [← pow_succ]
    congr 1
    omega
  have hApos : (0 : Int) ≤ 2 ^ (8 * l.length - 1) := by positivity
  unfold bytesToIntBE
  by_cases hc : bytesToNatBE l < 2 ^ (8 * l.length - 1)
  · rw [if_pos hc]
    constructor
    · omega
    · omega
  · rw [if_neg hc]
    constructor
    · omega
    · omega

/-! ## Bit length (`int.bit_length()`)

Python's `int.bit_length()` returns the number of bits needed for the
absolute value.  It is defined here with an explicit fuel argument so that
it is structurally recursive (and hence evaluates inside the kernel). -/

def natBitsAux : Nat → Nat → Nat
  | 0, _ => 0
  | fuel + 1, n => if n = 0 then 0 else natBitsAux fuel (n / 2) + 1

/-- `pyBitLength i` is Python's `i.bit_length()`. -/
def pyBitLength (i : Int) : Nat :=
  natBitsAux i.natAbs i.natAbs

theorem natBitsAux_spec (fuel n : Nat) (hf : n ≤ fuel) :
    n < 2 ^ natBitsAux fuel n ∧ (n ≠ 0 → 2 ^ (natBitsAux fuel n - 1) ≤ n) := by
  induction fuel generalizing n with
  | zero =>
    have : n = 0 := by omega
    subst this
    simp [natBitsAux]
  | succ k ih =>
    by_cases h0 : n = 0
    · subst h0
      simp [natBitsAux]
    · have hrec : natBitsAux (k + 1) n = natBitsAux k (n / 2) + 1 := by
        simp [natBitsAux, h0]
      have hhalf : n / 2 ≤ k := by omega
      obtain ⟨ihu, ihl⟩ := ih (n / 2) hhalf
      rw [hrec]
      have hpow : (2 : Nat) ^ (natBitsAux k (n / 2) + 1)
          = 2 * 2 ^ natBitsAux k (n / 2) := by
        rw [pow_succ]
        ring
      constructor
      · omega
      · intro _
        by_cases hm : n / 2 = 0
        · have hb0 : natBitsAux k (n / 2) = 0 := by
            rcases k with _ | k2
            · rfl
            · simp [natBitsAux, hm]
          simp only [hb0]
          omega
        · have hlow := ihl hm
          have hk1 : 1 ≤ natBitsAux k (n / 2) := by
            by_contra hcon
            have : natBitsAux k (n / 2) = 0 := by omega
            rw [this] at ihu
            omega
          have hpow2 : (2 : Nat) ^ natBitsAux k (n / 2)
              = 2 * 2 ^ (natBitsAux k (n / 2) - 1) := by
            rw [← pow_succ']
            congr 1
            omega
          simp only [Nat.add_sub_cancel]
          omega

theorem pyBitLength_spec (i : Int) :
    i.natAbs < 2 ^ pyBitLength i ∧ (i ≠ 0 → 2 ^ (pyBitLength i - 1) ≤ i.natAbs) := by
  obtain ⟨h1, h2⟩ := natBitsAux_spec i.natAbs i.natAbs le_rfl
  exact ⟨h1, fun hi => h2 (by simpa using hi)⟩

theorem pyBitLength_eq_zero_iff (i : Int) : pyBitLength i = 0 ↔ i = 0 := by
  constructor
  · intro h
    obtain ⟨h1, _⟩ := pyBitLength_spec i
    rw [h] at h1
    simp at h1
    omega
  · intro h
    subst h
    rfl

/-! ## Decimal context arithmetic (`decimal.Decimal` under the default context)

`Decimal(i)` is exact for every `int`, but `Decimal.scaleb` is a context
operation: CPython's default context has `prec = 28` and
`rounding = ROUND_HALF_EVEN`, so a result coefficient of more than 28
significant digits is rounded — on its magnitude, half to even, with a
carry into the exponent when rounding produces `10^28`.  `int(d)`
truncates toward zero. -/

def digits10Aux : Nat → Nat → Nat
  | 0, _ => 0
  | fuel + 1, n => if n = 0 then 0 else digits10Aux fuel (n / 10) + 1

/-- The number of decimal digits of `n` (0 for 0). -/
def digits10 (n : Nat) : Nat := digits10Aux n n

theorem digits10Aux_spec (fuel n : Nat) (hf : n ≤ fuel) :
    n < 10 ^ digits10Aux fuel n ∧ (n ≠ 0 → 10 ^ (digits10Aux fuel n - 1) ≤ n) := by
  induction fuel generalizing n with
  | zero =>
    have : n = 0 := by omega
    subst this
    simp [digits10Aux]
  | succ k ih =>
    by_cases h0 : n = 0
    · subst h0
      simp [digits10Aux]
    · have hrec : digits10Aux (k + 1) n = digits10Aux k (n / 10) + 1 := by
        simp [digits10Aux, h0]
      have htenth : n / 10 ≤ k := by omega
      obtain ⟨ihu, ihl⟩ := ih (n / 10) htenth
      rw [hrec]
      have hpow : (10 : Nat) ^ (digits10Aux k (n / 10) + 1)
          = 10 * 10 ^ digits10Aux k (n / 10) := by
        rw [pow_succ]
        ring
      constructor
      · omega
      · intro _
        by_cases hm : n / 10 = 0
        · have hb0 : digits10Aux k (n / 10) = 0 := by
            rcases k with _ | k2
            · rfl
            · simp [digits10Aux, hm]
          simp only [hb0]
          omega
        · have hlow := ihl hm
          have hk1 : 1 ≤ digits10Aux k (n / 10) := by
            by_contra hcon
            have : digits10Aux k (n / 10) = 0 := by omega
            rw [this] at ihu
            omega
          have hpow2 : (10 : Nat) ^ digits10Aux k (n / 10)
              = 10 * 10 ^ (digits10Aux k (n / 10) - 1) := by
            rw [← pow_succ']
            congr 1
            omega
          simp only [Nat.add_sub_cancel]
          omega

theorem digits10_spec (n : Nat) :
    n < 10 ^ digits10 n ∧ (n ≠ 0 → 10 ^ (digits10 n - 1) ≤ n) :=
  digits10Aux_spec n n le_rfl

theorem digits10_le_of_lt (n d : Nat) (h : n < 10 ^ d) : digits10 n ≤ d := by
  by_contra hc
  push_neg at hc
  have hne : n ≠ 0 := by
    intro h0
    rw [h0] at hc
    simp [digits10, digits10Aux] at hc
  have hlow := (digits10_spec n).2 hne
  have hmono : (10 : Nat) ^ d ≤ 10 ^ (digits10 n - 1) :=
    Nat.pow_le_pow_right (by norm_num) (by omega)
  omega

/-- Round a magnitude to at most 28 significant digits, half to even:
the rounded coefficient and the power of ten it absorbed. -/
def round28n (n : Nat) : Nat × Nat :=
  let d := digits10 n
  if d ≤ 28 then (n, 0)
  else
    let sh := d - 28
    let p := 10 ^ sh
    let q := n / p
    let r := n % p
    let q2 := if p < 2 * r then q + 1 else if 2 * r < p then q else q + q % 2
    if q2 = 10 ^ 28 then (10 ^ 27, sh + 1) else (q2, sh)

/-- Context rounding of a signed coefficient (`Decimal` rounds the
magnitude and keeps the sign). -/
def round28z (c : Int) : Int × Nat :=
  (if c < 0 then -(round28n c.natAbs).1 else ((round28n c.natAbs).1 : Int),
    (round28n c.natAbs).2)

/-- `Decimal(i).scaleb(-scale)` under the default context, as the
(coefficient, exponent) pair of the result; the value is `c * 10 ^ e`. -/
def scaleb28 (i scale : Int) : Int × Int :=
  ((round28z i).1, ((round28z i).2 : Int) - scale)

theorem round28n_exact (n : Nat) (h : digits10 n ≤ 28) : round28n n = (n, 0) := by
  unfold round28n
  simp only [if_pos h]

theorem round28z_exact (c : Int) (h : digits10 c.natAbs ≤ 28) :
    round28z c = (c, 0) := by
  simp only [round28z, round28n_exact c.natAbs h]
  split_ifs with hc <;> (congr 1; omega)

theorem scaleb28_exact (i scale : Int) (h : digits10 i.natAbs ≤ 28) :
    scaleb28 i scale = (i, -scale) := by
  unfold scaleb28
  rw [round28z_exact i h]
  show (i, ((0 : Nat) : Int) - scale) = (i, -scale)
  congr 1
  omega

/-! ## IEEE-754 conversions (`struct.unpack("<f")`, `struct.pack("<f"/"<d")`)

A Python `float` is a C `double`; the embedding stores its 64-bit pattern.
`struct.unpack("<f", b)` widens the 4-byte pattern to a double: exact on
finite values and infinities, and (as on all mainstream hardware) a
signalling NaN is quieted with its payload preserved.  `struct.pack("<f", x)`
narrows with round-to-nearest-even, raising `OverflowError` when a finite
double becomes infinite; a NaN keeps the top 22 payload bits with the quiet
bit forced.  `struct.pack("<d")` / `unpack("<d")` copy the bit pattern. -/

def natBits (n : Nat) : Nat := natBitsAux n n

theorem natBits_spec (n : Nat) :
    n < 2 ^ natBits n ∧ (n ≠ 0 → 2 ^ (natBits n - 1) ≤ n) :=
  natBitsAux_spec n n le_rfl

theorem natBits_eq_of (n k : Nat) (hk : 1 ≤ k) (h1 : 2 ^ (k - 1) ≤ n)
    (h2 : n < 2 ^ k) : natBits n = k := by
  have hne : n ≠ 0 := by
    have : (1 : Nat) ≤ 2 ^ (k - 1) := Nat.one_le_two_pow
    omega
  obtain ⟨hu, hl⟩ := natBits_spec n
  have hl2 := hl hne
  by_contra hc
  rcases Nat.lt_or_ge (natBits n) k with hlt | hge
  · have : (2 : Nat) ^ natBits n ≤ 2 ^ (k - 1) :=
      Nat.pow_le_pow_right (by norm_num) (by omega)
    omega
  · have hgt : k < natBits n := by omega
    have : (2 : Nat) ^ k ≤ 2 ^ (natBits n - 1) :=
      Nat.pow_le_pow_right (by norm_num) (by omega)
    omega

/-- Division rounded half to even. -/
def rheDiv (p q : Nat) : Nat :=
  if q < 2 * (p % q) then p / q + 1
  else if 2 * (p % q) < q then p / q
  else p / q + p / q % 2

theorem rheDiv_mul_self (a q : Nat) (hq : 0 < q) : rheDiv (a * q) q = a := by
  unfold rheDiv
  rw [Nat.mul_mod_left, Nat.mul_div_cancel a hq]
  rw [if_neg (by omega), if_pos (by omega)]

/-- `m * 2 ^ k` rounded half to even (exact when `k ≥ 0`). -/
def rneShift (m : Nat) (k : Int) : Nat :=
  if 0 ≤ k then m * 2 ^ k.toNat else rheDiv m (2 ^ (-k).toNat)

/-- Widen a `float32` bit pattern to `float64` (`struct.unpack("<f")`).
Subnormals are normalized; a NaN payload moves to the top mantissa bits
with the quiet bit forced (hardware behaviour of the C conversion). -/
def f32ToF64 (u : Nat) : Nat :=
  let s : Nat := u / 2 ^ 31
  let e : Nat := u / 2 ^ 23 % 2 ^ 8
  let m : Nat := u % 2 ^ 23
  if e = 255 then
    if m = 0 then s * 2 ^ 63 + 2047 * 2 ^ 52
    else s * 2 ^ 63 + 2047 * 2 ^ 52 + 2 ^ 51 + m % 2 ^ 22 * 2 ^ 29
  else if e = 0 then
    if m = 0 then s * 2 ^ 63
    else
      s * 2 ^ 63 + (natBits m + 873) * 2 ^ 52
        + (m - 2 ^ (natBits m - 1)) * 2 ^ (53 - natBits m)
  else s * 2 ^ 63 + (e + 896) * 2 ^ 52 + m * 2 ^ 29

/-- Narrow a `float64` bit pattern to `float32` with round-to-nearest-even
(`struct.pack("<f")`); `none` models the `OverflowError` CPython raises
when a finite double overflows the `float32` range. -/
def f64ToF32pack (v : Nat) : Option Nat :=
  let s : Nat := v / 2 ^ 63
  let e : Nat := v / 2 ^ 52 % 2 ^ 11
  let m : Nat := v % 2 ^ 52
  if e = 2047 then
    if m = 0 then some (s * 2 ^ 31 + 255 * 2 ^ 23)
    else some (s * 2 ^ 31 + 255 * 2 ^ 23 + 2 ^ 22 + m / 2 ^ 29 % 2 ^ 22)
  else if e = 0 ∧ m = 0 then some (s * 2 ^ 31)
  else
    let M : Nat := if e = 0 then m else 2 ^ 52 + m
    let E : Int := if e = 0 then -1074 else (e : Int) - 1075
    let t : Int := E + natBits M - 1
    if t < -126 then some (s * 2 ^ 31 + rneShift M (E + 149))
    else
      let n : Nat := rneShift M (24 - (natBits M : Int))
      let t2 : Int := if n = 2 ^ 24 then t + 1 else t
      let n2 : Nat := if n = 2 ^ 24 then 2 ^ 23 else n
      if 127 < t2 then none
      else some (s * 2 ^ 31 + (t2 + 127).toNat * 2 ^ 23 + (n2 - 2 ^ 23))

/-- `float(i)` for a Python `int`: round to nearest even; `none` models the
`OverflowError` beyond the double range. -/
def intToF64 (i : Int) : Option Nat :=
  if i = 0 then some 0
  else
    let s : Nat := if i < 0 then 1 else 0
    let M : Nat := i.natAbs
    let n : Nat := rneShift M (53 - (natBits M : Int))
    let t : Nat := if n = 2 ^ 53 then natBits M else natBits M - 1
    let n2 : Nat := if n = 2 ^ 53 then 2 ^ 52 else n
    if 1023 < t then none
    else some (s * 2 ^ 63 + (t + 1023) * 2 ^ 52 + (n2 - 2 ^ 52))

/-- `float(d)` for the `Decimal` with value `c * 10 ^ e`: correctly rounded
to nearest even; beyond the double range CPython (converting through the
decimal string) yields `±inf` rather than raising. -/
def decToF64 (c e : Int) : Nat :=
  if c = 0 then 0
  else
    let s : Nat := if c < 0 then 1 else 0
    let a : Nat := c.natAbs * 10 ^ e.toNat
    let b : Nat := 10 ^ (-e).toNat
    let t0 : Int := (natBits a : Int) - natBits b
    let t : Int := if b * 2 ^ t0.toNat ≤ a * 2 ^ (-t0).toNat then t0 else t0 - 1
    if 1023 < t then s * 2 ^ 63 + 2047 * 2 ^ 52
    else if t < -1022 then s * 2 ^ 63 + rheDiv (a * 2 ^ 1074) b
    else
      let n : Nat := rheDiv (a * 2 ^ (52 - t).toNat) (b * 2 ^ (t - 52).toNat)
      let t2 : Int := if n = 2 ^ 53 then t + 1 else t
      let n2 : Nat := if n = 2 ^ 53 then 2 ^ 52 else n
      if 1023 < t2 then s * 2 ^ 63 + 2047 * 2 ^ 52
      else s * 2 ^ 63 + (t2 + 1023).toNat * 2 ^ 52 + (n2 - 2 ^ 52)

/-! ## Statistics codec (`decode_stats_value` / `encode_stats_value`)

Shallow embedding of `_html.py:decode_stats_value` (lines 638–659) and
`_html.py:encode_stats_value` (lines 662–688).

Modelling choices:
* Physical types are the enumerators that the two functions distinguish,
  plus representatives (`INT96`, `BYTE_ARRAY`) of the pass-through default.
* A decoded value is a `StatsValue`.  `Decimal(i).scaleb(-s)` is `.dec c e`
  with `(c, e) = scaleb28 i s` — the context-rounded coefficient/exponent
  pair.  A Python float is `.float bits` with its 64-bit pattern; `FLOAT`
  decoding widens through `f32ToF64`.
* `decode_stats_value` returns `none` where the Python code raises
  (`struct.error` when the byte string does not match the `"<f"`/`"<d"`
  length); `encode_stats_value` returns `none` where the Python code raises
  (`struct.error` on an out-of-range or mis-typed argument,
  `AttributeError` on a value without `.scaleb`, `OverflowError` on a
  finite float overflowing `"<f"`).  On success Python returns `bytes`
  except in the pass-through default, which returns its argument unchanged,
  whatever it is; hence the result type `Option StatsValue`. -/

inductive PhysType where
  | BOOLEAN
  | INT32
  | INT64
  | INT96
  | FLOAT
  | DOUBLE
  | BYTE_ARRAY
  | FIXED_LEN_BYTE_ARRAY
deriving DecidableEq, Repr

/-- A logical-type annotation, as the decoder surfaces it: a one-key dict
such as `{"DECIMAL": {"scale": s, "precision": p}}` or `{"STRING": {}}`.
For `DECIMAL`, only `scale` is read (through `.get("scale", 0)`, hence the
`Option`). -/
inductive LogicalType where
  | DECIMAL (scale : Option Int)
  | STRING
  | otherLogical (tag : String)
deriving DecidableEq, Repr

/-- A Python value produced by `decode_stats_value` (and consumed by
`encode_stats_value` and the aggregation). -/
inductive StatsValue where
  | int (i : Int)
  | dec (c : Int) (e : Int)
  | float (bits : Nat)
  | bool (b : Bool)
  | bytes (b : List Nat)
deriving DecidableEq, Repr

def natToBytesLE (len n : Nat) : List Nat :=
  (natToBytesBE len n).reverse

/-- The non-`DECIMAL` tail of `decode_stats_value` (`_html.py` 647–659). -/
def decodeNonDecimal (l : List Nat) (t : PhysType) : Option StatsValue :=
  match t with
  | .INT32 => some (.int (bytesToIntLE l))
  | .INT64 => some (.int (bytesToIntLE l))
  | .FLOAT =>
    if l.length = 4 then some (.float (f32ToF64 (bytesToNatLE l))) else none
  | .DOUBLE => if l.length = 8 then some (.float (bytesToNatLE l)) else none
  | .BOOLEAN => some (.bool (bytesToNatLE l != 0))
  | _ => some (.bytes l)

/-- `_html.py:decode_stats_value`.  The `DECIMAL` block handles
`FIXED_LEN_BYTE_ARRAY` (big-endian signed) and `INT32`/`INT64`
(little-endian signed) through `Decimal(int_value).scaleb(-scale)` and
otherwise falls through to the generic cases. -/
def decode_stats_value (l : List Nat) (t : PhysType) (lt : Option LogicalType) :
    Option StatsValue :=
  match lt, t with
  | some (.DECIMAL sc), .FIXED_LEN_BYTE_ARRAY =>
    some (.dec (scaleb28 (bytesToIntBE l) (sc.getD 0)).1
      (scaleb28 (bytesToIntBE l) (sc.getD 0)).2)
  | some (.DECIMAL sc), .INT32 =>
    some (.dec (scaleb28 (bytesToIntLE l) (sc.getD 0)).1
      (scaleb28 (bytesToIntLE l) (sc.getD 0)).2)
  | some (.DECIMAL sc), .INT64 =>
    some (.dec (scaleb28 (bytesToIntLE l) (sc.getD 0)).1
      (scaleb28 (bytesToIntLE l) (sc.getD 0)).2)
  | _, _ => decodeNonDecimal l t

/-- `int(value.scaleb(scale))` for the `Decimal` `c * 10 ^ e`: `scaleb`
re-rounds the coefficient under the context (a no-op at ≤ 28 digits) and
`int()` truncates toward zero. -/
def decScaledInt (c e scale : Int) : Int :=
  if 0 ≤ e + (round28z c).2 + scale then
    (round28z c).1 * 10 ^ (e + (round28z c).2 + scale).toNat
  else Int.tdiv (round28z c).1 (10 ^ (-(e + (round28z c).2 + scale)).toNat)

/-- The exact scaled integer `int(v * 10^scale)` (truncated toward zero)
of the decimal value `c * 10 ^ e` — what the encoder computes whenever no
context rounding intervenes. -/
def exactScaledInt (c e scale : Int) : Int :=
  if 0 ≤ e + scale then c * 10 ^ (e + scale).toNat
  else Int.tdiv c (10 ^ (-(e + scale)).toNat)

theorem decScaledInt_exact (c e scale : Int) (h : digits10 c.natAbs ≤ 28) :
    decScaledInt c e scale = exactScaledInt c e scale := by
  unfold decScaledInt exactScaledInt
  rw [round28z_exact c h]
  simp only []
  rw [show e + ((0 : Nat) : Int) + scale = e + scale by omega]

/-- The byte length chosen by the fixed-length decimal encoder:
`bitlen = scaled.bit_length() or 1` then `(bitlen + 8) // 8`. -/
def flbaEncodeLength (scaled : Int) : Nat :=
  ((if pyBitLength scaled = 0 then 1 else pyBitLength scaled) + 8) / 8

/-- The 64-bit pattern `struct.pack` obtains for the `"<f"`/`"<d"` formats
(through `__float__`): floats directly, ints and `Decimal`s by conversion,
`bool` as 0.0/1.0; `none` models the raise on `bytes` (not convertible)
and on an `int` beyond the double range. -/
def toF64 (v : StatsValue) : Option Nat :=
  match v with
  | .float bits => some bits
  | .int i => intToF64 i
  | .bool b => some (if b then 4607182418800017408 else 0)
  | .dec c e => some (decToF64 c e)
  | .bytes _ => none

/-- Python truthiness of a decoded value (`struct.pack("<?", v)` stores
`bool(v)`). -/
def pyTruthy (v : StatsValue) : Bool :=
  match v with
  | .bool b => b
  | .int i => i != 0
  | .float bits => bits % 2 ^ 63 != 0
  | .dec c _ => c != 0
  | .bytes l => !l.isEmpty

/-- The integer `struct.pack("<i"/"<q")` accepts (via `__index__`): ints
and bools; every other argument raises. -/
def toIndex (v : StatsValue) : Option Int :=
  match v with
  | .int i => some i
  | .bool b => some (if b then 1 else 0)
  | _ => none

/-- The non-`DECIMAL` tail of `encode_stats_value` (`_html.py` 678–688). -/
def encodeNonDecimal (v : StatsValue) (t : PhysType) : Option StatsValue :=
  match t with
  | .INT32 =>
    (toIndex v).bind fun i =>
      if -(2 ^ 31) ≤ i ∧ i < 2 ^ 31 then some (.bytes (intToBytesLE 4 i)) else none
  | .INT64 =>
    (toIndex v).bind fun i =>
      if -(2 ^ 63) ≤ i ∧ i < 2 ^ 63 then some (.bytes (intToBytesLE 8 i)) else none
  | .FLOAT =>
    (toF64 v).bind fun bits =>
      (f64ToF32pack bits).map fun u => .bytes (natToBytesLE 4 u)
  | .DOUBLE => (toF64 v).map fun bits => .bytes (natToBytesLE 8 bits)
  | .BOOLEAN => some (.bytes [if pyTruthy v then 1 else 0])
  | _ => some v

/-- `_html.py:encode_stats_value`.  `type_length` (`tl`) is a parameter the
Python function declares but never reads; it is kept for fidelity.  In the
`DECIMAL` branches only a `Decimal` value responds to `.scaleb`
(`AttributeError` otherwise, modelled as `none`). -/
def encode_stats_value (v : StatsValue) (t : PhysType) (tl : Option Int)
    (lt : Option LogicalType) : Option StatsValue :=
  match lt, t with
  | some (.DECIMAL sc), .FIXED_LEN_BYTE_ARRAY =>
    match v with
    | .dec c e =>
      some (.bytes (intToBytesBE (flbaEncodeLength (decScaledInt c e (sc.getD 0)))
        (decScaledInt c e (sc.getD 0))))
    | _ => none
  | some (.DECIMAL sc), .INT32 =>
    match v with
    | .dec c e =>
      if -(2 ^ 31) ≤ decScaledInt c e (sc.getD 0) ∧ decScaledInt c e (sc.getD 0) < 2 ^ 31
      then some (.bytes (intToBytesLE 4 (decScaledInt c e (sc.getD 0))))
      else none
    | _ => none
  | some (.DECIMAL sc), .INT64 =>
    match v with
    | .dec c e =>
      if -(2 ^ 63) ≤ decScaledInt c e (sc.getD 0) ∧ decScaledInt c e (sc.getD 0) < 2 ^ 63
      then some (.bytes (intToBytesLE 8 (decScaledInt c e (sc.getD 0))))
      else none
    | _ => none
  | _, _ => encodeNonDecimal v t

theorem intToBytesLE_bytesToIntLE (l : List Nat) (h : ∀ x ∈ l, x < 256) :
    intToBytesLE l.length (bytesToIntLE l) = l := by
  unfold intToBytesLE bytesToIntLE
  rw [show l.length = l.reverse.length by simp]
  rw [intToBytesBE_bytesToIntBE l.reverse (fun x hx => h x (List.mem_reverse.mp hx))]
  exact List.reverse_reverse l

theorem bytesToIntLE_bounds (l : List Nat) (h : ∀ x ∈ l, x < 256) :
    -(2 ^ (8 * l.length - 1)) ≤ bytesToIntLE l ∧
      bytesToIntLE l < 2 ^ (8 * l.length - 1) := by
  have := bytesToIntBE_bounds l.reverse (fun x hx => h x (List.mem_reverse.mp hx))
  rwa [List.length_reverse] at this

theorem bytesToNatBE_eq_zero (l : List Nat) :
    bytesToNatBE l = 0 ↔ ∀ x ∈ l, x = 0 := by
  induction l with
  | nil => simp [bytesToNatBE]
  | cons x xs ih =>
    have hp : 0 < 256 ^ xs.length := pow_pos (by norm_num) _
    simp only [bytesToNatBE_cons, List.mem_cons]
    constructor
    · intro h
      have h1 : x * 256 ^ xs.length = 0 ∧ bytesToNatBE xs = 0 := by omega
      have hx : x = 0 := by
        rcases Nat.mul_eq_zero.mp h1.1 with hx | hpow
        · exact hx
        · omega
      refine fun y hy => ?_
      rcases hy with hy | hy
      · omega
      · exact ih.mp h1.2 y hy
    · intro h
      have hx : x = 0 := h x (Or.inl rfl)
      have hxs : bytesToNatBE xs = 0 := ih.mpr (fun y hy => h y (Or.inr hy))
      simp [hx, hxs]

theorem bytesToNatLE_eq_zero (l : List Nat) :
    bytesToNatLE l = 0 ↔ ∀ x ∈ l, x = 0 := by
  unfold bytesToNatLE
  rw [bytesToNatBE_eq_zero]
  constructor
  · exact fun h x hx => h x (List.mem_reverse.mpr hx)
  · exact fun h x hx => h x (List.mem_reverse.mp hx)

/-! ## Round-trip support lemmas -/

theorem natToBytesLE_bytesToNatLE (l : List Nat) (h : ∀ x ∈ l, x < 256) :
    natToBytesLE l.length (bytesToNatLE l) = l := by
  unfold natToBytesLE bytesToNatLE
  rw [show l.length = l.reverse.length by simp]
  rw [natToBytesBE_bytesToNatBE l.reverse (fun x hx => h x (List.mem_reverse.mp hx))]
  exact List.reverse_reverse l

theorem bytesToNatLE_lt_pow (l : List Nat) (h : ∀ x ∈ l, x < 256) :
    bytesToNatLE l < 256 ^ l.length := by
  have := bytesToNatBE_lt_pow l.reverse (fun x hx => h x (List.mem_reverse.mp hx))
  rwa [List.length_reverse] at this

/-- A `float32` bit pattern denoting a signalling NaN (maximal exponent,
nonzero mantissa, quiet bit clear). -/
def isSNaN32 (u : Nat) : Bool :=
  u / 2 ^ 23 % 2 ^ 8 == 255 && u % 2 ^ 23 != 0 && decide (u % 2 ^ 23 < 2 ^ 22)

theorem f32_roundtrip_normal (s e m : Nat) (hs : s < 2) (he1 : 1 ≤ e)
    (he : e ≤ 254) (hm : m < 2 ^ 23) :
    f64ToF32pack (s * 2 ^ 63 + (e + 896) * 2 ^ 52 + m * 2 ^ 29)
      = some (s * 2 ^ 31 + e * 2 ^ 23 + m) := by
  have hv63 : (s * 2 ^ 63 + (e + 896) * 2 ^ 52 + m * 2 ^ 29) / 2 ^ 63 = s := by
    omega
  have hv52 : (s * 2 ^ 63 + (e + 896) * 2 ^ 52 + m * 2 ^ 29) / 2 ^ 52 % 2 ^ 11
      = e + 896 := by omega
  have hvm : (s * 2 ^ 63 + (e + 896) * 2 ^ 52 + m * 2 ^ 29) % 2 ^ 52
      = m * 2 ^ 29 := by omega
  simp only [f64ToF32pack]
  rw [hv63, hv52, hvm]
  rw [if_neg (show ¬ (e + 896 = 2047) by omega)]
  rw [if_neg (show ¬ (e + 896 = 0 ∧ m * 2 ^ 29 = 0) by omega)]
  simp only [if_neg (show ¬ (e + 896 = 0) by omega)]
  have hBits : natBits (2 ^ 52 + m * 2 ^ 29) = 53 :=
    natBits_eq_of _ 53 (by norm_num) (by omega) (by omega)
  rw [hBits]
  rw [if_neg (show ¬ (((e + 896 : Nat) : Int) - 1075 + (53 : Nat) - 1 < -126) by omega)]
  have hshift : rneShift (2 ^ 52 + m * 2 ^ 29) (24 - ((53 : Nat) : Int))
      = 2 ^ 23 + m := by
    unfold rneShift
    rw [if_neg (by omega)]
    rw [show ((-(24 - ((53 : Nat) : Int))).toNat) = 29 by omega]
    rw [show (2 ^ 52 + m * 2 ^ 29) = (2 ^ 23 + m) * 2 ^ 29 by ring]
    exact rheDiv_mul_self _ _ (by norm_num)
  rw [hshift]
  simp only [if_neg (show ¬ (2 ^ 23 + m = 2 ^ 24) by omega)]
  rw [if_neg (show ¬ ((127 : Int) < ((e + 896 : Nat) : Int) - 1075 + (53 : Nat) - 1) by omega)]
  refine congrArg some ?_
  omega

theorem f32_roundtrip_subnormal (s m : Nat) (hs : s < 2) (hm0 : m ≠ 0)
    (hm : m < 2 ^ 23) :
    f64ToF32pack (s * 2 ^ 63 + (natBits m + 873) * 2 ^ 52
        + (m - 2 ^ (natBits m - 1)) * 2 ^ (53 - natBits m))
      = some (s * 2 ^ 31 + m) := by
  obtain ⟨hub, hlb0⟩ := natBits_spec m
  have hlb := hlb0 hm0
  set L := natBits m with hLdef
  have hL1 : 1 ≤ L := by
    by_contra hc
    have hz : L = 0 := by omega
    rw [hz] at hub
    simp at hub
    omega
  have hL23 : L ≤ 23 := by
    by_contra hc
    have : (2 : Nat) ^ 23 ≤ 2 ^ (L - 1) := Nat.pow_le_pow_right (by norm_num) (by omega)
    omega
  have hps : 2 ^ (L - 1) * 2 ^ (53 - L) = 2 ^ 52 := by
    rw [← pow_add]
    congr 1
    omega
  set A := (m - 2 ^ (L - 1)) * 2 ^ (53 - L) with hA
  set B := 2 ^ (53 - L) with hB
  have hBpos : 0 < B := by
    rw [hB]
    exact pow_pos (by norm_num) _
  have hmdecomp : A + 2 ^ 52 = m * B := by
    rw [hA, hB, ← hps, ← Nat.add_mul, Nat.sub_add_cancel hlb]
  have hmlt : A < 2 ^ 52 := by
    have h1 : m - 2 ^ (L - 1) < 2 ^ (L - 1) := by
      have h2 : (2 : Nat) ^ L = 2 ^ (L - 1) * 2 := by
        rw [← pow_succ]
        congr 1
        omega
      omega
    calc A < 2 ^ (L - 1) * 2 ^ (53 - L) := by
          rw [hA]
          exact mul_lt_mul_of_pos_right h1 hBpos
      _ = 2 ^ 52 := hps
  have hv63 : (s * 2 ^ 63 + (L + 873) * 2 ^ 52 + A) / 2 ^ 63 = s := by omega
  have hv52 : (s * 2 ^ 63 + (L + 873) * 2 ^ 52 + A) / 2 ^ 52 % 2 ^ 11 = L + 873 := by
    omega
  have hvm : (s * 2 ^ 63 + (L + 873) * 2 ^ 52 + A) % 2 ^ 52 = A := by omega
  simp only [f64ToF32pack]
  rw [hv63, hv52, hvm]
  rw [if_neg (show ¬ (L + 873 = 2047) by omega)]
  rw [if_neg (show ¬ (L + 873 = 0 ∧ A = 0) by omega)]
  simp only [if_neg (show ¬ (L + 873 = 0) by omega)]
  have hBits : natBits (2 ^ 52 + A) = 53 :=
    natBits_eq_of _ 53 (by norm_num) (by omega) (by omega)
  rw [hBits]
  rw [if_pos (show (((L + 873 : Nat) : Int) - 1075 + (53 : Nat) - 1 < -126) by omega)]
  have hshift : rneShift (2 ^ 52 + A) (((L + 873 : Nat) : Int) - 1075 + 149) = m := by
    unfold rneShift
    rw [if_neg (by omega)]
    rw [show ((-(((L + 873 : Nat) : Int) - 1075 + 149)).toNat) = 53 - L by omega]
    rw [← hB, show 2 ^ 52 + A = m * B by omega]
    exact rheDiv_mul_self _ _ hBpos
  rw [hshift]

theorem f32_roundtrip (u : Nat) (hu : u < 2 ^ 32) (hns : isSNaN32 u = false) :
    f64ToF32pack (f32ToF64 u) = some u := by
  have hs : u / 2 ^ 31 < 2 := by omega
  have hm : u % 2 ^ 23 < 2 ^ 23 := by omega
  simp only [f32ToF64]
  by_cases he255 : u / 2 ^ 23 % 2 ^ 8 = 255
  · rw [if_pos he255]
    by_cases hm0 : u % 2 ^ 23 = 0
    · rw [if_pos hm0]
      have h1 : (u / 2 ^ 31 * 2 ^ 63 + 2047 * 2 ^ 52) / 2 ^ 52 % 2 ^ 11 = 2047 := by
        omega
      have h2 : (u / 2 ^ 31 * 2 ^ 63 + 2047 * 2 ^ 52) % 2 ^ 52 = 0 := by omega
      have h3 : (u / 2 ^ 31 * 2 ^ 63 + 2047 * 2 ^ 52) / 2 ^ 63 = u / 2 ^ 31 := by
        omega
      simp only [f64ToF32pack]
      rw [h1, h2, h3]
      norm_num
      omega
    · rw [if_neg hm0]
      have hq : 2 ^ 22 ≤ u % 2 ^ 23 := by
        by_contra hc
        push_neg at hc
        have htrue : isSNaN32 u = true := by
          unfold isSNaN32
          rw [he255]
          simp only [beq_self_eq_true, Bool.true_and, Bool.and_eq_true,
            bne_iff_ne, ne_eq, decide_eq_true_eq]
          exact ⟨hm0, hc⟩
        rw [htrue] at hns
        exact absurd hns (by decide)
      have h1 : (u / 2 ^ 31 * 2 ^ 63 + 2047 * 2 ^ 52 + 2 ^ 51
          + u % 2 ^ 23 % 2 ^ 22 * 2 ^ 29) / 2 ^ 52 % 2 ^ 11 = 2047 := by omega
      have h2 : (u / 2 ^ 31 * 2 ^ 63 + 2047 * 2 ^ 52 + 2 ^ 51
          + u % 2 ^ 23 % 2 ^ 22 * 2 ^ 29) % 2 ^ 52
          = 2 ^ 51 + u % 2 ^ 23 % 2 ^ 22 * 2 ^ 29 := by omega
      have h3 : (u / 2 ^ 31 * 2 ^ 63 + 2047 * 2 ^ 52 + 2 ^ 51
          + u % 2 ^ 23 % 2 ^ 22 * 2 ^ 29) / 2 ^ 63 = u / 2 ^ 31 := by omega
      simp only [f64ToF32pack]
      rw [h1, h2, h3]
      rw [if_pos rfl]
      rw [if_neg (show ¬ (2 ^ 51 + u % 2 ^ 23 % 2 ^ 22 * 2 ^ 29 = 0) by omega)]
      refine congrArg some ?_
      omega
  · rw [if_neg he255]
    have he254 : u / 2 ^ 23 % 2 ^ 8 ≤ 254 := by omega
    by_cases he0 : u / 2 ^ 23 % 2 ^ 8 = 0
    · rw [if_pos he0]
      by_cases hm0 : u % 2 ^ 23 = 0
      · rw [if_pos hm0]
        have h1 : (u / 2 ^ 31 * 2 ^ 63) / 2 ^ 52 % 2 ^ 11 = 0 := by omega
        have h2 : (u / 2 ^ 31 * 2 ^ 63) % 2 ^ 52 = 0 := by omega
        have h3 : (u / 2 ^ 31 * 2 ^ 63) / 2 ^ 63 = u / 2 ^ 31 := by omega
        simp only [f64ToF32pack]
        rw [h1, h2, h3]
        norm_num
        omega
      · rw [if_neg hm0]
        rw [f32_roundtrip_subnormal (u / 2 ^ 31) (u % 2 ^ 23) hs hm0 hm]
        refine congrArg some ?_
        omega
    · rw [if_neg he0]
      rw [f32_roundtrip_normal (u / 2 ^ 31) (u / 2 ^ 23 % 2 ^ 8) (u % 2 ^ 23) hs
        (by omega) he254 hm]
      refine congrArg some ?_
      omega

theorem exactScaledInt_zero (c e scale : Int) (h : e + scale = 0) :
    exactScaledInt c e scale = c := by
  unfold exactScaledInt
  rw [if_pos (by omega), show (e + scale).toNat = 0 by omega]
  simp

/-- `digits10` of any 64-bit-signed magnitude is at most 28 (so the
decimal context never rounds values from `INT32`/`INT64` columns). -/
theorem digits10_le_28_of_small (n : Nat) (h : n ≤ 2 ^ 63) : digits10 n ≤ 28 :=
  digits10_le_of_lt n 28 (by omega)

set_option maxRecDepth 8000

/-! ## Claim C1 — statistics round-trip `encode(decode(bytes)) == bytes` -/

theorem flbaEncodeLength_eq (z : Int) :
    flbaEncodeLength z = max 1 ((pyBitLength z + 1 + 7) / 8) := by
  unfold flbaEncodeLength
  by_cases h : pyBitLength z = 0
  · rw [if_pos h, h]
    decide
  · rw [if_neg h]
    omega

theorem flbaEncodeLength_pos (z : Int) : 1 ≤ flbaEncodeLength z := by
  unfold flbaEncodeLength
  split <;> omega

theorem pyBitLength_le_flba (z : Int) :
    pyBitLength z ≤ 8 * flbaEncodeLength z - 1 := by
  unfold flbaEncodeLength
  by_cases h : pyBitLength z = 0
  · rw [if_pos h]
    omega
  · rw [if_neg h]
    omega

/-- C5, counterexample.  The claim says the decoded boolean is the
least-significant byte interpreted as 0/1 (the storage is little-endian,
so the least-significant byte of `[0, 1]` is 0, demanding `False`), but
the code converts the *whole* byte string (`int.from_bytes(b, "little")`)
to a truth value and yields `True`. -/
theorem decode_boolean_lsb_counterexample :
    ([0, 1] : List Nat).headI = 0 ∧
      decode_stats_value [0, 1] PhysType.BOOLEAN none ≠ some (StatsValue.bool false) ∧
      decode_stats_value [0, 1] PhysType.BOOLEAN none = some (StatsValue.bool true) := by
  decide

/-- C5, amended.  For physical type `BOOLEAN` (whatever the logical type:
the `DECIMAL` block never matches `BOOLEAN`), the decoded boolean is true
exactly when the little-endian integer value of *all* the stored bytes is
nonzero — equivalently, when at least one stored byte is nonzero. -/
theorem decode_boolean_any_nonzero (b : List Nat) (lt : Option LogicalType) :
    decode_stats_value b PhysType.BOOLEAN lt
      = some (StatsValue.bool (b.any (fun x => x != 0))) := by
  have hred : decode_stats_value b PhysType.BOOLEAN lt
      = some (StatsValue.bool (bytesToNatLE b != 0)) := by
    cases lt with
    | none => rfl
    | some l => cases l <;> rfl
  rw [hred]
  refine congrArg (fun x => some (StatsValue.bool x)) ?_
  by_cases h : bytesToNatLE b = 0
  · have hall := (bytesToNatLE_eq_zero b).mp h
    rw [h]
    simp only [bne_self_eq_false]
    symm
    rw [List.any_eq_false]
    intro x hx
    simp [hall x hx]
  · have hex : ¬ ∀ x ∈ b, x = 0 := fun hc => h ((bytesToNatLE_eq_zero b).mpr hc)
    push_neg at hex
    obtain ⟨x, hx, hxne⟩ := hex
    have h1 : (bytesToNatLE b != 0) = true := by simp [bne_iff_ne, h]
    have h2 : b.any (fun x => x != 0) = true := by
      rw [List.any_eq_true]
      exact ⟨x, hx, by simp [hxne]⟩
    rw [h1, h2]

/-! ## `format_stats_value` (`_html.py` 691–708)

The display function decodes the raw statistics bytes; when the decoded
value is still `bytes` it renders text (UTF-8, with replacement of invalid
sequences, for `STRING` logical types) or hex, truncated to 256
characters/bytes with a `"… (N more …)"` suffix.  Python's `str()` of the
non-bytes scalars is irrelevant to the claims and is kept symbolic
(`.strOf`).  Strings are rendered as `List Char`; `decodeUtf8Replace`
models CPython's `bytes.decode("utf-8", errors="replace")`, which replaces
each maximal invalid subpart by U+FFFD. -/

/-- U+FFFD replacement character. -/
def replChar : Char := Char.ofNat 0xFFFD

def decodeUtf8ReplaceAux : Nat → List Nat → List Char
  | 0, _ => []
  | fuel + 1, l =>
    match l with
    | [] => []
    | b :: rest =>
      if b < 0x80 then Char.ofNat b :: decodeUtf8ReplaceAux fuel rest
      else if b < 0xC2 then replChar :: decodeUtf8ReplaceAux fuel rest
      else if b < 0xE0 then
        match rest with
        | [] => [replChar]
        | b2 :: rest2 =>
          if 0x80 ≤ b2 ∧ b2 < 0xC0 then
            Char.ofNat ((b - 0xC0) * 64 + (b2 - 0x80)) :: decodeUtf8ReplaceAux fuel rest2
          else replChar :: decodeUtf8ReplaceAux fuel rest
      else if b < 0xF0 then
        match rest with
        | [] => [replChar]
        | b2 :: rest2 =>
          if (if b = 0xE0 then 0xA0 ≤ b2 ∧ b2 < 0xC0
              else if b = 0xED then 0x80 ≤ b2 ∧ b2 < 0xA0
              else 0x80 ≤ b2 ∧ b2 < 0xC0) then
            match rest2 with
            | [] => [replChar]
            | b3 :: rest3 =>
              if 0x80 ≤ b3 ∧ b3 < 0xC0 then
                Char.ofNat ((b - 0xE0) * 4096 + (b2 - 0x80) * 64 + (b3 - 0x80))
                  :: decodeUtf8ReplaceAux fuel rest3
              else replChar :: decodeUtf8ReplaceAux fuel rest2
          else replChar :: decodeUtf8ReplaceAux fuel rest
      else if b < 0xF5 then
        match rest with
        | [] => [replChar]
        | b2 :: rest2 =>
          if (if b = 0xF0 then 0x90 ≤ b2 ∧ b2 < 0xC0
              else if b = 0xF4 then 0x80 ≤ b2 ∧ b2 < 0x90
              else 0x80 ≤ b2 ∧ b2 < 0xC0) then
            match rest2 with
            | [] => [replChar]
            | b3 :: rest3 =>
              if 0x80 ≤ b3 ∧ b3 < 0xC0 then
                match rest3 with
                | [] => [replChar]
                | b4 :: rest4 =>
                  if 0x80 ≤ b4 ∧ b4 < 0xC0 then
                    Char.ofNat ((b - 0xF0) * 262144 + (b2 - 0x80) * 4096
                        + (b3 - 0x80) * 64 + (b4 - 0x80))
                      :: decodeUtf8ReplaceAux fuel rest4
                  else replChar :: decodeUtf8ReplaceAux fuel rest3
              else replChar :: decodeUtf8ReplaceAux fuel rest2
          else replChar :: decodeUtf8ReplaceAux fuel rest
      else replChar :: decodeUtf8ReplaceAux fuel rest

/-- `bytes.decode("utf-8", errors="replace")`.  Each decoding step consumes
at least one byte, so `l.length` steps of fuel always suffice. -/
def decodeUtf8Replace (l : List Nat) : List Char :=
  decodeUtf8ReplaceAux l.length l

/-- Decimal digits of `n` (Python `str(n)` / f-string rendering of a
non-negative integer), fuel-structural so the kernel can evaluate it. -/
def natDigitsAux : Nat → Nat → List Char → List Char
  | 0, _, acc => acc
  | fuel + 1, n, acc =>
    if n < 10 then Char.ofNat (48 + n % 10) :: acc
    else natDigitsAux fuel (n / 10) (Char.ofNat (48 + n % 10) :: acc)

def natToChars (n : Nat) : List Char :=
  natDigitsAux (n + 1) n []

/-- One lowercase hex digit. -/
def hexDigit (n : Nat) : Char :=
  if n < 10 then Char.ofNat (48 + n) else Char.ofNat (87 + n)

/-- `bytes.hex()`: two lowercase hex digits per byte. -/
def hexChars (l : List Nat) : List Char :=
  l.foldr (fun b acc => hexDigit (b / 16 % 16) :: hexDigit (b % 16) :: acc) []

/-- Python's `"STRING" in (logical_type or {})`. -/
def isStringLt : Option LogicalType → Bool
  | some .STRING => true
  | _ => false

/-- Result of `format_stats_value`: a rendered character string, or the
symbolic `str()` of a decoded non-bytes scalar (not needed by any claim). -/
inductive PyRendered where
  | chars (s : List Char)
  | strOf (v : StatsValue)
deriving DecidableEq, Repr

/-- `_html.py:format_stats_value` (`none` models a raise propagated from
`decode_stats_value`). -/
def format_stats_value (b : List Nat) (t : PhysType) (lt : Option LogicalType) :
    Option PyRendered :=
  match decode_stats_value b t lt with
  | none => none
  | some (.bytes d) =>
    if isStringLt lt then
      if (decodeUtf8Replace d).length ≤ 256 then some (.chars (decodeUtf8Replace d))
      else some (.chars ((decodeUtf8Replace d).take 256 ++ "… (".data
        ++ natToChars ((decodeUtf8Replace d).length - 256) ++ " more characters)".data))
    else
      if d.length ≤ 256 then some (.chars ("0x".data ++ hexChars d))
      else some (.chars ("0x".data ++ hexChars (d.take 256) ++ "… (".data
        ++ natToChars (d.length - 256) ++ " more bytes)".data))
  | some v => some (.strOf v)

/-! ## Claim C6 — stats display truncation -/

/-- C6: for a `STRING`-logical-type value whose decoded form is still bytes
(pass-through physical type `BYTE_ARRAY`), the display decodes UTF-8 with
replacement; results of more than 256 characters are truncated to exactly
the first 256 characters plus the `"… (N more characters)"` suffix with
`N = length - 256`, shorter results are returned unchanged; without the
`STRING` logical type the bytes are hex-encoded (`0x…`) with the analogous
byte-level truncation. -/
theorem format_stats_value_truncation :
    (∀ b : List Nat,
      ((decodeUtf8Replace b).length ≤ 256 →
        format_stats_value b PhysType.BYTE_ARRAY (some LogicalType.STRING)
          = some (PyRendered.chars (decodeUtf8Replace b))) ∧
      (256 < (decodeUtf8Replace b).length →
        ((decodeUtf8Replace b).take 256).length = 256 ∧
        format_stats_value b PhysType.BYTE_ARRAY (some LogicalType.STRING)
          = some (PyRendered.chars ((decodeUtf8Replace b).take 256 ++ "… (".data
              ++ natToChars ((decodeUtf8Replace b).length - 256)
              ++ " more characters)".data)))) ∧
    (∀ b : List Nat,
      (b.length ≤ 256 →
        format_stats_value b PhysType.BYTE_ARRAY none
          = some (PyRendered.chars ("0x".data ++ hexChars b))) ∧
      (256 < b.length →
        (b.take 256).length = 256 ∧
        format_stats_value b PhysType.BYTE_ARRAY none
          = some (PyRendered.chars ("0x".data ++ hexChars (b.take 256) ++ "… (".data
              ++ natToChars (b.length - 256) ++ " more bytes)".data)))) := by
  constructor
  · intro b
    constructor
    · intro hle
      simp only [format_stats_value, decode_stats_value, decodeNonDecimal, isStringLt,
        if_true]
      rw [if_pos hle]
    · intro hgt
      refine ⟨by rw [List.length_take]; omega, ?_⟩
      simp only [format_stats_value, decode_stats_value, decodeNonDecimal, isStringLt,
        if_true]
      rw [if_neg (by omega)]
  · intro b
    constructor
    · intro hle
      simp only [format_stats_value, decode_stats_value, decodeNonDecimal, isStringLt,
        Bool.false_eq_true, if_false]
      rw [if_pos hle]
    · intro hgt
      refine ⟨by rw [List.length_take]; omega, ?_⟩
      simp only [format_stats_value, decode_stats_value, decodeNonDecimal, isStringLt,
        Bool.false_eq_true, if_false]
      rw [if_neg (by omega)]

set_option maxRecDepth 8000

/-- Witness for `format_stats_value_truncation`: 300 ASCII `a` bytes decode
to 300 characters and get truncated at 256. -/
theorem format_stats_value_truncation_witness :
    256 < (decodeUtf8Replace (List.replicate 300 97)).length ∧
      format_stats_value (List.replicate 300 97) PhysType.BYTE_ARRAY
          (some LogicalType.STRING)
        = some (PyRendered.chars ((decodeUtf8Replace (List.replicate 300 97)).take 256
            ++ "… (".data
            ++ natToChars ((decodeUtf8Replace (List.replicate 300 97)).length - 256)
            ++ " more characters)".data)) :=
  ⟨by decide, ((format_stats_value_truncation.1 (List.replicate 300 97)).2 (by decide)).2⟩

/-! ## Segments

A segment dict as the walker produces it: a name, absolute `offset`,
`length`, an optional scalar integer `value` (`ival`), an optional list of
child segments (`children`, empty when the value is not a list), and the
optional bookkeeping keys the grouping functions add
(`row_group_index`, `column_index`, `num_pages`). -/

inductive Seg where
  | mk (name : String) (offset : Int) (length : Int) (ival : Option Int)
      (children : List Seg) (rgIdx : Option Int) (colIdx : Option Int)
      (numPages : Option Int)

def Seg.name : Seg → String
  | .mk n _ _ _ _ _ _ _ => n

def Seg.offset : Seg → Int
  | .mk _ o _ _ _ _ _ _ => o

def Seg.length : Seg → Int
  | .mk _ _ l _ _ _ _ _ => l

def Seg.ival : Seg → Option Int
  | .mk _ _ _ v _ _ _ _ => v

def Seg.children : Seg → List Seg
  | .mk _ _ _ _ c _ _ _ => c

def Seg.rgIdx : Seg → Option Int
  | .mk _ _ _ _ _ r _ _ => r

def Seg.colIdx : Seg → Option Int
  | .mk _ _ _ _ _ _ c _ => c

def Seg.numPages : Seg → Option Int
  | .mk _ _ _ _ _ _ _ n => n

/-- `dict.get(key)` over an insertion-ordered mapping from offsets to
segments.  Later writes are prepended, so the first hit is the most recent
one, matching Python dict assignment semantics. -/
def assocGet (m : List (Int × Seg)) (k : Int) : Option Seg :=
  (m.find? (fun e => e.1 == k)).map (fun e => e.2)

/-! ## Claim C2 — DuckDB `data_page_offset` fix (`_html.py` 324–350) -/

/-- `_html.py:fix_duckdb_data_page_offset`, with the `logger.warning` call
modelled as the boolean second component.  The Python code scans the
dictionary page header's fields for the first one named
`compressed_page_size` (treating both a missing field and a value of 0 by
returning `data_page_offset` unchanged, since `dict_page_size` starts at 0
and `dict_page_size == 0` short-circuits). -/
def fix_duckdb_data_page_offset (page_mapping : List (Int × Seg))
    (data_page_offset dict_page_offset : Int) : Int × Bool :=
  match assocGet page_mapping dict_page_offset with
  | none => (data_page_offset, false)
  | some dict_page =>
    match dict_page.children.find? (fun f => f.name == "compressed_page_size") with
    | none => (data_page_offset, false)
    | some f =>
      if f.ival.getD 0 = 0 then (data_page_offset, false)
      else
        if data_page_offset < dict_page_offset + dict_page.length + f.ival.getD 0 then
          (dict_page_offset + dict_page.length + f.ival.getD 0, true)
        else (data_page_offset, false)

/-- A decoded dictionary page header at offset 200, header length 10, whose
`compressed_page_size` field is 0. -/
def dictPageSizeZero : Seg :=
  .mk ":page_header" 200 10 none
    [.mk "compressed_page_size" 0 0 (some 0) [] none none none] none none none

/-- A decoded dictionary page header at offset 200, header length 10, whose
`compressed_page_size` field is 80. -/
def dictPageSize80 : Seg :=
  .mk ":page_header" 200 10 none
    [.mk "compressed_page_size" 0 0 (some 80) [] none none none] none none none

/-- C2, counterexample.  With a dictionary page at offset 200 (header
length 10, `compressed_page_size` 0) and `data_page_offset = 205 < 210`,
the claim demands the recomputed start 210 with a warning, but the code
returns 205 unchanged and does not warn (`dict_page_size == 0` shortcut). -/
theorem fix_duckdb_counterexample :
    (205 : Int) < 200 + 10 + 0 ∧
      fix_duckdb_data_page_offset [(200, dictPageSizeZero)] 205 200 ≠ (210, true) ∧
      fix_duckdb_data_page_offset [(200, dictPageSizeZero)] 205 200 = (205, false) := by
  refine ⟨by norm_num, ?_, ?_⟩ <;> decide

/-- C2, amended.  When the dictionary page header is available and its
(first) `compressed_page_size` field is *nonzero*, the walk recomputes the
data-page start exactly as claimed (and logs a warning); otherwise —
missing page, missing field, zero size, or `data_page_offset` already at or
past the dictionary end — `data_page_offset` is used unchanged.  In
particular for the dictionary page at 200 with header length 10 and size 80
and `data_page_offset = 200`, the result is 290 with a warning. -/
theorem fix_duckdb_spec :
    (∀ (pm : List (Int × Seg)) (dpo doff : Int) (page f : Seg),
      assocGet pm doff = some page →
      page.children.find? (fun c => c.name == "compressed_page_size") = some f →
      f.ival.getD 0 ≠ 0 →
      (dpo < doff + page.length + f.ival.getD 0 →
        fix_duckdb_data_page_offset pm dpo doff
          = (doff + page.length + f.ival.getD 0, true)) ∧
      (doff + page.length + f.ival.getD 0 ≤ dpo →
        fix_duckdb_data_page_offset pm dpo doff = (dpo, false))) ∧
    (∀ (pm : List (Int × Seg)) (dpo doff : Int),
      assocGet pm doff = none →
      fix_duckdb_data_page_offset pm dpo doff = (dpo, false)) ∧
    fix_duckdb_data_page_offset [(200, dictPageSize80)] 200 200 = (290, true) := by
  refine ⟨?_, ?_, by decide⟩
  · intro pm dpo doff page f hget hfind hnz
    constructor
    · intro hlt
      simp only [fix_duckdb_data_page_offset, hget, hfind]
      rw [if_neg hnz, if_pos hlt]
    · intro hge
      simp only [fix_duckdb_data_page_offset, hget, hfind]
      rw [if_neg hnz, if_neg (by omega)]
  · intro pm dpo doff hget
    simp only [fix_duckdb_data_page_offset, hget]

/-- Witness for `fix_duckdb_spec`: the recompute branch at the concrete
dictionary page of size 80 with `data_page_offset = 200`. -/
theorem fix_duckdb_spec_witness :
    fix_duckdb_data_page_offset [(200, dictPageSize80)] 200 200 = (290, true) :=
  (fix_duckdb_spec.1 [(200, dictPageSize80)] 200 200 dictPageSize80
      (.mk "compressed_page_size" 0 0 (some 80) [] none none none)
      rfl rfl (by decide)).1 (by decide)

/-! ## Claim C7 — termination of the per-column-chunk page walk
(`_html.py` 352–366 and 390–402) -/

/-- `_html.py:get_num_values`: the first `num_values` field found inside a
`data_page_header` or `data_page_header_v2` child of the page header,
defaulting to 0. -/
def get_num_values (page : Seg) : Int :=
  match page.children.findSome? (fun it =>
      if it.name == "data_page_header" || it.name == "data_page_header_v2" then
        (it.children.find? (fun it2 => it2.name == "num_values")).map
          (fun it2 => it2.ival.getD 0)
      else none) with
  | some v => v
  | none => 0

/-- `_html.py:get_next_page_offset`: `current + header_len +
compressed_page_size`, or `None` when the header has no
`compressed_page_size` field. -/
def get_next_page_offset (current : Int) (page : Seg) : Option Int :=
  (page.children.find? (fun it => it.name == "compressed_page_size")).map
    (fun it => current + page.length + it.ival.getD 0)

/-- How the `while remaining_values > 0 and data_page_offset is not None`
loop ends. -/
inductive WalkEnd where
  | finished (rem : Int)
  | headerMissing (rem off : Int)
  | outOfFuel
deriving DecidableEq, Repr

/-- The data-page loop of
`_html.py:build_page_offset_to_column_chunk_mapping` (lines 390–402), with
an explicit fuel argument because the Python loop does not terminate on all
inputs (claim C7).  Returns the visited data-page offsets (the keys added
to `offset_mapping`) and how the loop ended. -/
def pageWalk (pm : List (Int × Seg)) : Nat → Int → Option Int → List Int × WalkEnd
  | 0, _, _ => ([], .outOfFuel)
  | fuel + 1, rem, off? =>
    if rem > 0 then
      match off? with
      | none => ([], .finished rem)
      | some off =>
        match assocGet pm off with
        | none => ([], .headerMissing rem off)
        | some page =>
          let res := pageWalk pm fuel (rem - get_num_values page)
            (get_next_page_offset off page)
          (off :: res.1, res.2)
    else ([], .finished rem)

/-- A degenerate page header at offset 100 with header length 0 and
`compressed_page_size` 0 (and no `num_values`): the loop revisits offset
100 forever. -/
def loopPage : Seg :=
  .mk ":page_header" 100 0 none
    [.mk "compressed_page_size" 0 0 (some 0) [] none none none] none none none

theorem pageWalk_loopPage_all_fuel (fuel : Nat) :
    (pageWalk [(100, loopPage)] fuel 5 (some 100)).2 = WalkEnd.outOfFuel := by
  induction fuel with
  | zero => rfl
  | succ k ih =>
    have hstep : pageWalk [(100, loopPage)] (k + 1) 5 (some 100)
        = (100 :: (pageWalk [(100, loopPage)] k 5 (some 100)).1,
           (pageWalk [(100, loopPage)] k 5 (some 100)).2) := rfl
    rw [hstep]
    exact ih

/-- C7, counterexample.  The claim says the loop reaches `remaining ≤ 0` or
a missing header after finitely many iterations for *every* footer and page
mapping.  With the degenerate page `loopPage` (header length 0,
`compressed_page_size` 0, no `num_values`), the state `(rem = 5, offset =
100)` repeats forever: no amount of fuel completes the walk. -/
theorem pageWalk_nontermination_counterexample :
    ¬ ∃ fuel : Nat,
      (pageWalk [(100, loopPage)] fuel 5 (some 100)).2 ≠ WalkEnd.outOfFuel := by
  rintro ⟨fuel, hne⟩
  exact hne (pageWalk_loopPage_all_fuel fuel)

/-- A page whose header either lacks `compressed_page_size` (so the loop
stops) or advances the offset by at least one byte. -/
def pageAdvancesB (p : Seg) : Bool :=
  match p.children.find? (fun c => c.name == "compressed_page_size") with
  | some f => decide (1 ≤ p.length + f.ival.getD 0)
  | none => true

theorem countP_lt_of_key_found (pm : List (Int × Seg)) (off n : Int)
    (h : off < n) (e0 : Int × Seg) (hmem : e0 ∈ pm) (hkey : e0.1 = off) :
    pm.countP (fun e => decide (n ≤ e.1)) < pm.countP (fun e => decide (off ≤ e.1)) := by
  induction pm with
  | nil => cases hmem
  | cons e t ih =>
    rw [List.countP_cons, List.countP_cons]
    have hmono : t.countP (fun e => decide (n ≤ e.1))
        ≤ t.countP (fun e => decide (off ≤ e.1)) := by
      apply List.countP_mono_left
      intro a _ ha
      simp only [decide_eq_true_eq] at ha ⊢
      omega
    rcases List.mem_cons.mp hmem with he | ht
    · subst he
      have h1 : decide (n ≤ e0.1) = false := by
        simp only [decide_eq_false_iff_not]
        omega
      have h2 : decide (off ≤ e0.1) = true := by
        simp only [decide_eq_true_eq]
        omega
      rw [h1, h2]
      norm_num
      omega
    · have hlt := ih ht
      by_cases hc : n ≤ e.1
      · have h1 : decide (n ≤ e.1) = true := by simp [hc]
        have h2 : decide (off ≤ e.1) = true := by
          simp only [decide_eq_true_eq]
          omega
        rw [h1, h2]
        norm_num
        omega
      · have h1 : decide (n ≤ e.1) = false := by simp [hc]
        rw [h1]
        norm_num
        split <;> omega

theorem pageWalk_fuel_sufficient (pm : List (Int × Seg))
    (hpm : ∀ e ∈ pm, pageAdvancesB e.2 = true) :
    ∀ (fuel : Nat) (rem : Int) (off? : Option Int),
      (match off? with
       | none => 0
       | some off => pm.countP (fun e => decide (off ≤ e.1))) < fuel →
      (pageWalk pm fuel rem off?).2 ≠ WalkEnd.outOfFuel := by
  intro fuel
  induction fuel with
  | zero => intro rem off? hm; omega
  | succ k ih =>
    intro rem off? hm
    have hstep : pageWalk pm (k + 1) rem off?
        = if rem > 0 then
            (match off? with
             | none => ([], WalkEnd.finished rem)
             | some off =>
               match assocGet pm off with
               | none => ([], WalkEnd.headerMissing rem off)
               | some page =>
                 let res := pageWalk pm k (rem - get_num_values page)
                   (get_next_page_offset off page)
                 (off :: res.1, res.2))
          else ([], WalkEnd.finished rem) := rfl
    rw [hstep]
    by_cases hrem : rem > 0
    · rw [if_pos hrem]
      cases off? with
      | none =>
        show ¬ (([], WalkEnd.finished rem) : List Int × WalkEnd).2 = WalkEnd.outOfFuel
        simp
      | some off =>
        show (match assocGet pm off with
              | none => (([], WalkEnd.headerMissing rem off) : List Int × WalkEnd)
              | some page =>
                (off :: (pageWalk pm k (rem - get_num_values page)
                    (get_next_page_offset off page)).1,
                 (pageWalk pm k (rem - get_num_values page)
                    (get_next_page_offset off page)).2)).2
            ≠ WalkEnd.outOfFuel
        rcases hget : assocGet pm off with _ | page
        · show ¬ (([], WalkEnd.headerMissing rem off) : List Int × WalkEnd).2
            = WalkEnd.outOfFuel
          simp
        · show (pageWalk pm k (rem - get_num_values page)
            (get_next_page_offset off page)).2 ≠ WalkEnd.outOfFuel
          have hentry : ∃ e ∈ pm, e.1 = off ∧ e.2 = page := by
            unfold assocGet at hget
            rcases hfind : pm.find? (fun e => e.1 == off) with _ | e
            · rw [hfind] at hget; cases hget
            · rw [hfind] at hget
              simp only [Option.map_some'] at hget
              have hp := List.find?_some hfind
              have hmem := List.mem_of_find?_eq_some hfind
              simp only [beq_iff_eq] at hp
              exact ⟨e, hmem, hp, Option.some.inj hget⟩
          obtain ⟨e0, hmem0, hkey0, hpage0⟩ := hentry
          have hcount1 : 1 ≤ pm.countP (fun e => decide (off ≤ e.1)) := by
            rw [Nat.succ_le_iff, List.countP_pos_iff]
            exact ⟨e0, hmem0, by simp [hkey0]⟩
          apply ih
          rcases hnext : get_next_page_offset off page with _ | n
          · show 0 < k
            have hm2 : pm.countP (fun e => decide (off ≤ e.1)) < k + 1 := hm
            omega
          · show pm.countP (fun e => decide (n ≤ e.1)) < k
            have hadv : off < n := by
              unfold get_next_page_offset at hnext
              rcases hfind2 : page.children.find?
                  (fun it => it.name == "compressed_page_size") with _ | f
              · rw [hfind2] at hnext; cases hnext
              · rw [hfind2] at hnext
                simp only [Option.map_some', Option.some.injEq] at hnext
                have hb := hpm e0 hmem0
                unfold pageAdvancesB at hb
                rw [hpage0, hfind2] at hb
                have := of_decide_eq_true hb
                omega
            have hdec := countP_lt_of_key_found pm off n hadv e0 hmem0 hkey0
            have hm2 : pm.countP (fun e => decide (off ≤ e.1)) < k + 1 := hm
            omega
    · rw [if_neg hrem]
      show ¬ (([], WalkEnd.finished rem) : List Int × WalkEnd).2 = WalkEnd.outOfFuel
      simp

/-- C7, amended.  The page walk terminates on every input in which each
mapped page header either lacks a `compressed_page_size` field or has
header length plus `compressed_page_size` at least 1 (true of every header
actually decoded from a file, whose lengths are positive): the loop ends —
with `remaining ≤ 0`/exhausted offsets or with a missing header — within
`|page mapping| + 1` iterations. -/
theorem pageWalk_terminates (pm : List (Int × Seg)) (rem : Int) (off? : Option Int)
    (hpm : ∀ e ∈ pm, pageAdvancesB e.2 = true) :
    (pageWalk pm (pm.length + 1) rem off?).2 ≠ WalkEnd.outOfFuel := by
  apply pageWalk_fuel_sufficient pm hpm
  cases off? with
  | none =>
    show 0 < pm.length + 1
    omega
  | some off =>
    show pm.countP (fun e => decide (off ≤ e.1)) < pm.length + 1
    have := List.countP_le_length (p := fun e : Int × Seg => decide (off ≤ e.1)) (l := pm)
    omega

/-- Witness for `pageWalk_terminates`: a one-page mapping with a proper
header (length 10, `compressed_page_size` 20, 50 values). -/
theorem pageWalk_terminates_witness :
    (pageWalk [(100, Seg.mk ":page_header" 100 10 none
        [Seg.mk "compressed_page_size" 0 0 (some 20) [] none none none,
         Seg.mk "data_page_header" 0 0 none
           [Seg.mk "num_values" 0 0 (some 50) [] none none none] none none none]
        none none none)] 2 100 (some 100)).2 ≠ WalkEnd.outOfFuel :=
  pageWalk_terminates _ 100 (some 100) (by decide)

/-! ## Claims C8 and C9 — `parse` magic checks and `json_encode`

These functions live in `parquet_analyzer/_core.py`, which is not part of
the provided sources (only its tests and callers are).  They are therefore
modelled from the specification and settled against that model. -/

/-- The 4-byte magic `b"PAR1"`. -/
def par1 : List Nat := [0x50, 0x41, 0x52, 0x31]

inductive ParseError where
  | badHeader
  | badFooter
deriving DecidableEq, Repr

/-- The last `n` bytes of a file. -/
def lastBytes (n : Nat) (file : List Nat) : List Nat :=
  file.drop (file.length - n)

/-- Modelled from the spec: `parse_parquet_file` is in `_core.py`, which is
absent from the sources.  §4.4 passes 1–2 and §6: read bytes `[0, 4)` and
fail with `bad-header` if they are not `PAR1`; read bytes
`[file_size - 4, file_size)` and fail with `bad-footer` if they are not
`PAR1`; then read the 4 little-endian bytes before the trailing magic as
the footer length and continue (the continuation is irrelevant to C8 and
is returned as the footer length). -/
def parseMagicChecks (file : List Nat) : Except ParseError Nat :=
  if file.take 4 ≠ par1 then .error .badHeader
  else if lastBytes 4 file ≠ par1 then .error .badFooter
  else .ok (bytesToNatLE ((file.drop (file.length - 8)).take 4))

/-- C8: `parse` raises `bad-header` whenever the first four bytes are not
`PAR1`, and `bad-footer` whenever the first four are `PAR1` but the last
four are not; in particular on the two concrete 16/20-byte inputs of the
spec's end-to-end scenarios. -/
theorem parse_magic_checks_spec :
    (∀ file : List Nat, file.take 4 ≠ par1 →
      parseMagicChecks file = .error ParseError.badHeader) ∧
    (∀ file : List Nat, file.take 4 = par1 → lastBytes 4 file ≠ par1 →
      parseMagicChecks file = .error ParseError.badFooter) ∧
    parseMagicChecks ([0x42, 0x41, 0x44, 0x21] ++ List.replicate 12 0)
      = .error ParseError.badHeader ∧
    parseMagicChecks (par1 ++ List.replicate 12 0 ++ [0, 0, 0, 0]
        ++ [0x42, 0x41, 0x44, 0x21])
      = .error ParseError.badFooter := by
  refine ⟨?_, ?_, rfl, rfl⟩
  · intro file hh
    unfold parseMagicChecks
    rw [if_pos hh]
  · intro file hh hf
    unfold parseMagicChecks
    rw [if_neg (by simp [hh]), if_pos hf]

/-- Witness for `parse_magic_checks_spec` at the spec's two malformed
inputs. -/
theorem parse_magic_checks_spec_witness :
    parseMagicChecks ([0x42, 0x41, 0x44, 0x21] ++ List.replicate 12 0)
        = .error ParseError.badHeader ∧
      parseMagicChecks (par1 ++ List.replicate 12 0 ++ [0, 0, 0, 0]
          ++ [0x42, 0x41, 0x44, 0x21])
        = .error ParseError.badFooter :=
  ⟨parse_magic_checks_spec.1 ([0x42, 0x41, 0x44, 0x21] ++ List.replicate 12 0)
      (by decide),
   parse_magic_checks_spec.2.1 (par1 ++ List.replicate 12 0 ++ [0, 0, 0, 0]
        ++ [0x42, 0x41, 0x44, 0x21]) (by decide) (by decide)⟩

/-- A Python value passed to `json_encode`: raw bytes, or anything else. -/
inductive JsonInput where
  | raw (b : List Nat)
  | notBytes
deriving DecidableEq, Repr

inductive JsonError where
  | badArgument
deriving DecidableEq, Repr

/-- The tagged binary record `json_encode` returns. -/
inductive JsonBinary where
  | binFull (length : Nat) (value : List Nat)
  | binTrunc (length : Nat) (value_truncated : List Nat)
deriving DecidableEq, Repr

/-- Modelled from the spec: `json_encode` is in `_core.py`, which is absent
from the sources.  §4.7: bytes of length `N ≤ 32` become
`{type: "binary", length: N, value: [byte, ...]}`; longer bytes become
`{type: "binary", length: N, value_truncated: [first 32 bytes]}`; any
non-bytes input raises `bad-argument`. -/
def json_encode : JsonInput → Except JsonError JsonBinary
  | .raw b =>
    if b.length ≤ 32 then .ok (.binFull b.length b)
    else .ok (.binTrunc b.length (b.take 32))
  | .notBytes => .error .badArgument

/-- C9: `json_encode` keeps short byte strings whole, truncates long ones
to exactly the first 32 bytes, always reports the original length, and
rejects non-bytes inputs. -/
theorem json_encode_spec :
    (∀ b : List Nat, b.length ≤ 32 →
      json_encode (.raw b) = .ok (.binFull b.length b)) ∧
    (∀ b : List Nat, 32 < b.length →
      json_encode (.raw b) = .ok (.binTrunc b.length (b.take 32)) ∧
      (b.take 32).length = 32) ∧
    json_encode .notBytes = .error JsonError.badArgument := by
  refine ⟨?_, ?_, rfl⟩
  · intro b hb
    simp only [json_encode]
    rw [if_pos hb]
  · intro b hb
    refine ⟨?_, ?_⟩
    · simp only [json_encode]
      rw [if_neg (by omega)]
    · rw [List.length_take]
      omega

/-- Witness for `json_encode_spec`: the spec's 36-byte example input
`b"0123456789abcdefghijklmnopqrstuvwxyz"` is truncated to 32 value bytes
with `length = 36`, and a short 3-byte input is kept whole. -/
theorem json_encode_spec_witness :
    json_encode (.raw [97, 98, 99]) = .ok (.binFull 3 [97, 98, 99]) ∧
      json_encode (.raw ((List.range 10).map (fun d => 48 + d)
          ++ (List.range 26).map (fun d => 97 + d)))
        = .ok (.binTrunc 36 (((List.range 10).map (fun d => 48 + d)
            ++ (List.range 26).map (fun d => 97 + d)).take 32)) := by
  constructor
  · exact json_encode_spec.1 [97, 98, 99] (by decide)
  · have h := (json_encode_spec.2.1 ((List.range 10).map (fun d => 48 + d)
        ++ (List.range 26).map (fun d => 97 + d)) (by decide)).1
    rw [h]
    have hlen : ((List.range 10).map (fun d => 48 + d)
        ++ (List.range 26).map (fun d => 97 + d)).length = 36 := by decide
    rw [hlen]

/-! ## Footer data model

The decoded footer JSON, restricted to the keys the functions under study
read.  Optional dictionary keys are `Option` fields.  `data_page_offset`
and the aggregation's `num_values` are accessed with `metadata[...]` in
Python (a `KeyError` aborts the run when absent); `data_page_offset` is
modelled as required, `num_values` keeps the `Option` of the aggregation's
`.get("num_values", 0)` and the walker reads it with default 0 (the
`KeyError` path is not modelled).  `encodings` uses `.get(..., [])`, so a
missing key is the empty list. -/

structure Statistics where
  null_count : Option Int
  min_value : Option (List Nat)
  max_value : Option (List Nat)
  is_min_value_exact : Option Bool
  is_max_value_exact : Option Bool
  distinct_count : Option Int

/-- Python truthiness of the `statistics` dict: it is nonempty. -/
def Statistics.truthy (s : Statistics) : Bool :=
  s.null_count.isSome || s.min_value.isSome || s.max_value.isSome
    || s.is_min_value_exact.isSome || s.is_max_value_exact.isSome
    || s.distinct_count.isSome

structure EncodingStat where
  page_type : String
  encoding : String
  count : Int
deriving DecidableEq, Repr

structure MetaData where
  path_in_schema : Option (List String)
  type : Option PhysType
  type_length : Option Int
  num_values : Option Int
  total_uncompressed_size : Option Int
  total_compressed_size : Option Int
  encodings : List String
  statistics : Option Statistics
  encoding_stats : Option (List EncodingStat)
  codec : Option String
  data_page_offset : Int
  dictionary_page_offset : Option Int
  bloom_filter_offset : Option Int

/-- The all-absent metadata record (used only as a `headD` default that is
never reached). -/
def defaultMd : MetaData :=
  ⟨none, none, none, none, none, none, [], none, none, none, 0, none, none⟩

instance : Inhabited MetaData := ⟨defaultMd⟩

structure ColumnChunk where
  meta_data : Option MetaData
  column_index_offset : Option Int
  offset_index_offset : Option Int

structure RowGroup where
  columns : List ColumnChunk

structure Footer where
  row_groups : List RowGroup

/-! ## Offset-to-column-chunk mapping
(`_html.py` 308–314, 317–409, 412–433) -/

/-- The `offset_mapping` dict from absolute offsets to
`(row_group_index, column_index)`; writes prepend, reads take the first
hit. -/
def OffMap : Type := List (Int × (Int × Int))

/-- `offset_mapping.get(offset, (-1, -1))`. -/
def omGet (om : OffMap) (k : Int) : Int × Int :=
  match (List.find? (fun e => e.1 == k) om) with
  | some e => e.2
  | none => (-1, -1)

/-- `_html.py:get_page_mapping`: offsets of all `:page_header` segments. -/
def get_page_mapping (segments : List Seg) : List (Int × Seg) :=
  segments.foldl (fun m s => if s.name == ":page_header" then (s.offset, s) :: m else m) []

/-- The per-chunk part of
`_html.py:build_page_offset_to_column_chunk_mapping`: record the
dictionary page offset (fixing `data_page_offset` if needed), then run
the data-page loop (`pageWalk`) and record every visited offset. -/
def walkChunk (pm : List (Int × Seg)) (fuel : Nat) (rgi ci : Int) (md : MetaData)
    (om : OffMap) : OffMap :=
  match md.dictionary_page_offset with
  | none =>
    ((pageWalk pm fuel (md.num_values.getD 0) (some md.data_page_offset)).1).foldl
      (fun m o => (o, (rgi, ci)) :: m) om
  | some doff =>
    ((pageWalk pm fuel (md.num_values.getD 0)
        (some (fix_duckdb_data_page_offset pm md.data_page_offset doff).1)).1).foldl
      (fun m o => (o, (rgi, ci)) :: m) ((doff, (rgi, ci)) :: om)

/-- `_html.py:build_page_offset_to_column_chunk_mapping` (column chunks
without `meta_data` are skipped with a warning). -/
def build_page_offset_to_column_chunk_mapping (pm : List (Int × Seg)) (fuel : Nat)
    (footer : Footer) : OffMap :=
  footer.row_groups.enum.foldl (fun om rgp =>
    rgp.2.columns.enum.foldl (fun om2 cp =>
      match cp.2.meta_data with
      | none => om2
      | some md => walkChunk pm fuel (rgp.1 : Int) (cp.1 : Int) md om2) om) []

/-- `_html.py:build_offset_to_column_chunk_mapping`: record column-index,
offset-index and bloom-filter offsets. -/
def build_offset_to_column_chunk_mapping (footer : Footer) (om0 : OffMap) : OffMap :=
  footer.row_groups.enum.foldl (fun om rgp =>
    rgp.2.columns.enum.foldl (fun om2 cp =>
      let om3 := match cp.2.column_index_offset with
        | some o => (o, ((rgp.1 : Int), (cp.1 : Int))) :: om2
        | none => om2
      let om4 := match cp.2.offset_index_offset with
        | some o => (o, ((rgp.1 : Int), (cp.1 : Int))) :: om3
        | none => om3
      match cp.2.meta_data with
      | none => om4
      | some md =>
        match md.bloom_filter_offset with
        | some o => (o, ((rgp.1 : Int), (cp.1 : Int))) :: om4
        | none => om4) om) om0

/-! ## Segment grouping (`_html.py` 252–574) -/

/-- Total of the `length` fields of a segment list. -/
def sumLens (l : List Seg) : Int :=
  (l.map Seg.length).sum

/-- Total of the `num_pages` fields (Python reads `item["num_pages"]`,
present on every item it is asked of; a missing key is modelled as 0). -/
def sumNumPages (l : List Seg) : Int :=
  (l.map (fun s => s.numPages.getD 0)).sum

/-- The reserved grouping names (`_html.py:group_segment_names`). -/
def segGroupNames : List String :=
  [":page", ":column_chunk_pages", ":row_group_pages",
   ":row_group_column_indexes", ":row_group_offset_indexes",
   ":row_group_bloom_filters", ":pages", ":column_indexes",
   ":offset_indexes", ":bloom_filters"]

/-- The `:page` group made of a `:page_header` and its `:page_data`. -/
def mkPageSeg (h d : Seg) : Seg :=
  .mk ":page" h.offset (h.length + d.length) none [h, d] none none none

/-- `_html.py:group_page_header_and_data`: pair each `:page_header` with an
immediately following `:page_data` into a `:page` group; a header without
one passes through (with a warning). -/
def group_page_header_and_data : List Seg → List Seg
  | [] => []
  | s :: rest =>
    if s.name == ":page_header" then
      match rest with
      | [] => [s]
      | s2 :: rest2 =>
        if s2.name == ":page_data" then
          mkPageSeg s s2 :: group_page_header_and_data rest2
        else s :: group_page_header_and_data (s2 :: rest2)
    else s :: group_page_header_and_data rest
termination_by l => l.length

/-- `itertools.groupby`: split a list into maximal runs of consecutive
elements with equal keys, each run as (first element, rest of run). -/
def chunkByKey {κ : Type} [DecidableEq κ] (key : Seg → κ) : List Seg → List (Seg × List Seg)
  | [] => []
  | s :: rest =>
    match chunkByKey key rest with
    | [] => [(s, [])]
    | (h, t) :: more =>
      if key s = key h then (s, h :: t) :: more else (s, []) :: (h, t) :: more

/-- Flatten runs back into the original list. -/
def joinChunks : List (Seg × List Seg) → List Seg
  | [] => []
  | c :: more => c.1 :: (c.2 ++ joinChunks more)

/-- One `:column_chunk_pages` group. -/
def mkChunkGroup (om : OffMap) (h : Seg) (t : List Seg) : Seg :=
  .mk ":column_chunk_pages" h.offset (sumLens (h :: t)) none (h :: t)
    (some (omGet om h.offset).1) (some (omGet om h.offset).2)
    (some ((h :: t).length : Int))

/-- `_html.py:group_by_column_chunk`: group maximal runs of `:page`
segments by `(row_group_index, column_index)`. -/
def group_by_column_chunk (om : OffMap) : List Seg → List Seg
  | [] => []
  | s :: rest =>
    if s.name == ":page" then
      (chunkByKey (fun x => omGet om x.offset)
          (s :: rest.takeWhile (fun x => x.name == s.name))).map
        (fun c => mkChunkGroup om c.1 c.2)
      ++ group_by_column_chunk om (rest.dropWhile (fun x => x.name == s.name))
    else s :: group_by_column_chunk om rest
termination_by l => l.length
decreasing_by
  all_goals simp only [List.length_cons]
  · exact Nat.lt_succ_of_le (List.Sublist.length_le (List.dropWhile_sublist _))
  · omega

/-- The names `group_by_row_group` groups, and the group name each maps to
(the Python dict `group_name_mapping`; the default branch is unreachable). -/
def rgGroupTargets : List String :=
  [":column_chunk_pages", ":column_index", ":offset_index", ":bloom_filter"]

def rgGroupName (n : String) : String :=
  if n == ":column_chunk_pages" then ":row_group_pages"
  else if n == ":column_index" then ":row_group_column_indexes"
  else if n == ":offset_index" then ":row_group_offset_indexes"
  else ":row_group_bloom_filters"

/-- One row-group-level group (`num_pages` only for pages groups). -/
def mkRowGroupSeg (om : OffMap) (srcName : String) (h : Seg) (t : List Seg) : Seg :=
  .mk (rgGroupName srcName) h.offset (sumLens (h :: t)) none (h :: t)
    (some (omGet om h.offset).1) none
    (if srcName == ":column_chunk_pages" then some (sumNumPages (h :: t)) else none)

/-- `_html.py:group_by_row_group`. -/
def group_by_row_group (om : OffMap) : List Seg → List Seg
  | [] => []
  | s :: rest =>
    if rgGroupTargets.contains s.name then
      (chunkByKey (fun x => (omGet om x.offset).1)
          (s :: rest.takeWhile (fun x => x.name == s.name))).map
        (fun c => mkRowGroupSeg om s.name c.1 c.2)
      ++ group_by_row_group om (rest.dropWhile (fun x => x.name == s.name))
    else s :: group_by_row_group om rest
termination_by l => l.length
decreasing_by
  all_goals simp only [List.length_cons]
  · exact Nat.lt_succ_of_le (List.Sublist.length_le (List.dropWhile_sublist _))
  · omega

def typeGroupTargets : List String :=
  [":row_group_pages", ":row_group_column_indexes", ":row_group_offset_indexes",
   ":row_group_bloom_filters"]

def typeGroupName (n : String) : String :=
  if n == ":row_group_pages" then ":pages"
  else if n == ":row_group_column_indexes" then ":column_indexes"
  else if n == ":row_group_offset_indexes" then ":offset_indexes"
  else ":bloom_filters"

/-- One type-level group. -/
def mkTypeGroupSeg (srcName : String) (h : Seg) (t : List Seg) : Seg :=
  .mk (typeGroupName srcName) h.offset (sumLens (h :: t)) none (h :: t)
    none none
    (if srcName == ":row_group_pages" then some (sumNumPages (h :: t)) else none)

/-- `_html.py:group_by_type`: each maximal same-name run of row-group-level
groups becomes one type-level group. -/
def group_by_type : List Seg → List Seg
  | [] => []
  | s :: rest =>
    if typeGroupTargets.contains s.name then
      mkTypeGroupSeg s.name s (rest.takeWhile (fun x => x.name == s.name))
        :: group_by_type (rest.dropWhile (fun x => x.name == s.name))
    else s :: group_by_type rest
termination_by l => l.length
decreasing_by
  all_goals simp only [List.length_cons]
  · exact Nat.lt_succ_of_le (List.Sublist.length_le (List.dropWhile_sublist _))
  · omega

/-- `_html.py:group_segments`: the full pipeline.  The page walk inside the
offset-mapping builder carries the explicit fuel of `pageWalk` (see C7). -/
def group_segments (fuel : Nat) (segments : List Seg) (footer : Footer) : List Seg :=
  group_by_type
    (group_by_row_group
      (build_offset_to_column_chunk_mapping footer
        (build_page_offset_to_column_chunk_mapping (get_page_mapping segments)
          fuel footer))
      (group_by_column_chunk
        (build_offset_to_column_chunk_mapping footer
          (build_page_offset_to_column_chunk_mapping (get_page_mapping segments)
            fuel footer))
        (group_page_header_and_data segments)))

/-! ## Claim C10 — `group_segments` preserves byte coverage -/

theorem sumLens_nil : sumLens [] = 0 := rfl

theorem sumLens_cons (s : Seg) (l : List Seg) :
    sumLens (s :: l) = s.length + sumLens l := by
  simp [sumLens]

theorem sumLens_append (a b : List Seg) :
    sumLens (a ++ b) = sumLens a + sumLens b := by
  simp [sumLens]

theorem joinChunks_chunkByKey {κ : Type} [DecidableEq κ] (key : Seg → κ)
    (l : List Seg) : joinChunks (chunkByKey key l) = l := by
  induction l with
  | nil => rfl
  | cons s rest ih =>
    simp only [chunkByKey]
    rcases h : chunkByKey key rest with _ | ⟨⟨h0, t0⟩, more⟩
    · rw [h] at ih
      simp only [joinChunks] at ih ⊢
      simp [← ih]
    · rw [h] at ih
      show joinChunks (if key s = key h0 then (s, h0 :: t0) :: more
          else (s, []) :: (h0, t0) :: more) = s :: rest
      by_cases hk : key s = key h0
      · rw [if_pos hk]
        simp only [joinChunks] at ih ⊢
        simp [ih]
      · rw [if_neg hk]
        simp only [joinChunks] at ih ⊢
        simp [ih]

theorem mem_joinChunks (cs : List (Seg × List Seg)) (c : Seg × List Seg)
    (hc : c ∈ cs) (x : Seg) (hx : x = c.1 ∨ x ∈ c.2) : x ∈ joinChunks cs := by
  induction cs with
  | nil => cases hc
  | cons d more ih =>
    simp only [joinChunks]
    rcases List.mem_cons.mp hc with he | ht
    · subst he
      rcases hx with h | h
      · rw [h]
        exact List.mem_cons_self _ _
      · exact List.mem_cons_of_mem _ (List.mem_append_left _ h)
    · exact List.mem_cons_of_mem _ (List.mem_append_right _ (ih ht))

theorem mem_of_mem_chunkByKey {κ : Type} [DecidableEq κ] (key : Seg → κ)
    (l : List Seg) (c : Seg × List Seg) (hc : c ∈ chunkByKey key l) (x : Seg)
    (hx : x = c.1 ∨ x ∈ c.2) : x ∈ l := by
  have := mem_joinChunks (chunkByKey key l) c hc x hx
  rwa [joinChunks_chunkByKey] at this

theorem sumLens_map_groups (cs : List (Seg × List Seg)) (f : Seg × List Seg → Seg)
    (hf : ∀ c ∈ cs, (f c).length = sumLens (c.1 :: c.2)) :
    sumLens (cs.map f) = sumLens (joinChunks cs) := by
  induction cs with
  | nil => rfl
  | cons c more ih =>
    simp only [List.map_cons, joinChunks, sumLens_cons]
    rw [hf c (List.mem_cons_self _ _)]
    have : sumLens (c.2 ++ joinChunks more) = sumLens c.2 + sumLens (joinChunks more) :=
      sumLens_append _ _
    rw [sumLens_cons, this, ih (fun d hd => hf d (List.mem_cons_of_mem _ hd))]
    ring

theorem sumLens_map_mkChunkGroup (om : OffMap) (cs : List (Seg × List Seg)) :
    sumLens (cs.map (fun c => mkChunkGroup om c.1 c.2)) = sumLens (joinChunks cs) :=
  sumLens_map_groups cs (fun c => mkChunkGroup om c.1 c.2) (fun _ _ => rfl)

theorem sumLens_map_mkRowGroupSeg (om : OffMap) (nm : String)
    (cs : List (Seg × List Seg)) :
    sumLens (cs.map (fun c => mkRowGroupSeg om nm c.1 c.2)) = sumLens (joinChunks cs) :=
  sumLens_map_groups cs (fun c => mkRowGroupSeg om nm c.1 c.2) (fun _ _ => rfl)

theorem sumLens_take_drop (p : Seg → Bool) (l : List Seg) :
    sumLens (l.takeWhile p) + sumLens (l.dropWhile p) = sumLens l := by
  rw [← sumLens_append, List.takeWhile_append_dropWhile]

theorem sumLens_group_page_header_and_data (l : List Seg) :
    sumLens (group_page_header_and_data l) = sumLens l := by
  induction l using group_page_header_and_data.induct with
  | case1 => simp [group_page_header_and_data]
  | case2 s h =>
    simp only [group_page_header_and_data]
    split <;> rfl
  | case3 s h s2 rest2 h2 ih =>
    simp only [group_page_header_and_data, h, h2, if_true, if_false,
      Bool.false_eq_true]
    rw [sumLens_cons, ih]
    rw [show sumLens (s :: s2 :: rest2) = s.length + (s2.length + sumLens rest2) by
      rw [sumLens_cons, sumLens_cons]]
    show (mkPageSeg s s2).length + sumLens rest2 = _
    show s.length + s2.length + sumLens rest2 = _
    ring
  | case4 s h s2 rest2 h2 ih =>
    simp only [group_page_header_and_data, h, h2, if_true, if_false,
      Bool.false_eq_true]
    rw [sumLens_cons, ih]
    have := sumLens_cons s (s2 :: rest2)
    omega
  | case5 s rest h ih =>
    rw [group_page_header_and_data.eq_def]
    simp only [h, if_true, if_false, Bool.false_eq_true]
    rw [sumLens_cons, sumLens_cons, ih]

theorem sumLens_group_by_column_chunk (om : OffMap) (l : List Seg) :
    sumLens (group_by_column_chunk om l) = sumLens l := by
  induction l using group_by_column_chunk.induct om with
  | case1 => simp [group_by_column_chunk]
  | case2 s rest h ih =>
    simp only [group_by_column_chunk, h, if_true]
    rw [sumLens_append, sumLens_map_mkChunkGroup, joinChunks_chunkByKey, ih]
    rw [sumLens_cons, sumLens_cons]
    have := sumLens_take_drop (fun x => x.name == s.name) rest
    omega
  | case3 s rest h ih =>
    simp only [group_by_column_chunk, h, if_true, if_false, Bool.false_eq_true]
    rw [sumLens_cons, sumLens_cons, ih]

theorem sumLens_group_by_row_group (om : OffMap) (l : List Seg) :
    sumLens (group_by_row_group om l) = sumLens l := by
  induction l using group_by_row_group.induct om with
  | case1 => simp [group_by_row_group]
  | case2 s rest h ih =>
    simp only [group_by_row_group, h, if_true]
    rw [sumLens_append, sumLens_map_mkRowGroupSeg, joinChunks_chunkByKey, ih]
    rw [sumLens_cons, sumLens_cons]
    have := sumLens_take_drop (fun x => x.name == s.name) rest
    omega
  | case3 s rest h ih =>
    simp only [group_by_row_group, h, if_true, if_false, Bool.false_eq_true]
    rw [sumLens_cons, sumLens_cons, ih]

theorem sumLens_group_by_type (l : List Seg) :
    sumLens (group_by_type l) = sumLens l := by
  induction l using group_by_type.induct with
  | case1 => simp [group_by_type]
  | case2 s rest h ih =>
    simp only [group_by_type, h, if_true]
    rw [sumLens_cons, ih]
    rw [show (mkTypeGroupSeg s.name s (rest.takeWhile (fun x => x.name == s.name))).length
        = sumLens (s :: rest.takeWhile (fun x => x.name == s.name)) from rfl]
    rw [sumLens_cons, sumLens_cons]
    have := sumLens_take_drop (fun x => x.name == s.name) rest
    omega
  | case3 s rest h ih =>
    simp only [group_by_type, h, if_true, if_false, Bool.false_eq_true]
    rw [sumLens_cons, sumLens_cons, ih]

/-- Well-formedness of grouped segments: every segment that bears one of
the reserved grouping names covers exactly its members — its `length` is
the sum of its children's lengths and its `offset` is its first child's
offset — recursively at every depth.  Segments with other names are
unconstrained (their children still are). -/
inductive DeepOk : Seg → Prop where
  | intro (n : String) (o len : Int) (iv : Option Int) (ch : List Seg)
      (rg ci np : Option Int)
      (hname : n ∈ segGroupNames →
        len = sumLens ch ∧ ∃ c cs, ch = c :: cs ∧ o = c.offset)
      (hch : ∀ c ∈ ch, DeepOk c) :
      DeepOk (.mk n o len iv ch rg ci np)

theorem deepOk_mkPageSeg (h d : Seg) (hh : DeepOk h) (hd : DeepOk d) :
    DeepOk (mkPageSeg h d) := by
  have hsum : h.length + d.length = sumLens [h, d] := by simp [sumLens]
  apply DeepOk.intro
  · intro _
    exact ⟨hsum, h, [d], rfl, rfl⟩
  · intro c hc
    rcases List.mem_cons.mp hc with rfl | hc
    · exact hh
    · rcases List.mem_singleton.mp hc with rfl
      exact hd

theorem deepOk_mkChunkGroup (om : OffMap) (h : Seg) (t : List Seg)
    (hh : DeepOk h) (ht : ∀ x ∈ t, DeepOk x) : DeepOk (mkChunkGroup om h t) := by
  apply DeepOk.intro
  · intro _
    exact ⟨rfl, h, t, rfl, rfl⟩
  · intro c hc
    rcases List.mem_cons.mp hc with rfl | hc
    · exact hh
    · exact ht c hc

theorem deepOk_mkRowGroupSeg (om : OffMap) (nm : String) (h : Seg) (t : List Seg)
    (hh : DeepOk h) (ht : ∀ x ∈ t, DeepOk x) : DeepOk (mkRowGroupSeg om nm h t) := by
  apply DeepOk.intro
  · intro _
    exact ⟨rfl, h, t, rfl, rfl⟩
  · intro c hc
    rcases List.mem_cons.mp hc with rfl | hc
    · exact hh
    · exact ht c hc

theorem deepOk_mkTypeGroupSeg (nm : String) (h : Seg) (t : List Seg)
    (hh : DeepOk h) (ht : ∀ x ∈ t, DeepOk x) : DeepOk (mkTypeGroupSeg nm h t) := by
  apply DeepOk.intro
  · intro _
    exact ⟨rfl, h, t, rfl, rfl⟩
  · intro c hc
    rcases List.mem_cons.mp hc with rfl | hc
    · exact hh
    · exact ht c hc

theorem mem_cons_of_mem_run (s0 : Seg) (rest : List Seg) (p : Seg → Bool) :
    ∀ x ∈ s0 :: rest.takeWhile p, x ∈ s0 :: rest := by
  intro x hx
  rcases List.mem_cons.mp hx with rfl | hx
  · exact List.mem_cons_self _ _
  · exact List.mem_cons_of_mem _ ((List.takeWhile_sublist _).subset hx)

theorem deepOk_group_page_header_and_data (l : List Seg)
    (hl : ∀ s ∈ l, DeepOk s) :
    ∀ s ∈ group_page_header_and_data l, DeepOk s := by
  induction l using group_page_header_and_data.induct with
  | case1 =>
    intro s hs
    simp [group_page_header_and_data] at hs
  | case2 s0 h =>
    intro s hs
    simp only [group_page_header_and_data] at hs
    have hs1 : s ∈ [s0] := by
      split at hs <;> exact hs
    rcases List.mem_singleton.mp hs1 with rfl
    exact hl s (List.mem_singleton.mpr rfl)
  | case3 s0 h s2 rest2 h2 ih =>
    intro s hs
    simp only [group_page_header_and_data, h, h2, if_true, if_false,
      Bool.false_eq_true] at hs
    rcases List.mem_cons.mp hs with rfl | hs
    · exact deepOk_mkPageSeg s0 s2 (hl s0 (List.mem_cons_self _ _))
        (hl s2 (List.mem_cons_of_mem _ (List.mem_cons_self _ _)))
    · exact ih (fun x hx => hl x
        (List.mem_cons_of_mem _ (List.mem_cons_of_mem _ hx))) s hs
  | case4 s0 h s2 rest2 h2 ih =>
    intro s hs
    simp only [group_page_header_and_data, h, h2, if_true, if_false,
      Bool.false_eq_true] at hs
    rcases List.mem_cons.mp hs with rfl | hs
    · exact hl s (List.mem_cons_self _ _)
    · exact ih (fun x hx => hl x (List.mem_cons_of_mem _ hx)) s hs
  | case5 s0 rest h ih =>
    intro s hs
    rw [group_page_header_and_data.eq_def] at hs
    simp only [h, if_true, if_false, Bool.false_eq_true] at hs
    rcases List.mem_cons.mp hs with rfl | hs
    · exact hl s (List.mem_cons_self _ _)
    · exact ih (fun x hx => hl x (List.mem_cons_of_mem _ hx)) s hs

theorem deepOk_group_by_column_chunk (om : OffMap) (l : List Seg)
    (hl : ∀ s ∈ l, DeepOk s) :
    ∀ s ∈ group_by_column_chunk om l, DeepOk s := by
  induction l using group_by_column_chunk.induct om with
  | case1 =>
    intro s hs
    simp [group_by_column_chunk] at hs
  | case2 s0 rest h ih =>
    intro s hs
    simp only [group_by_column_chunk, h, if_true] at hs
    have hsub := mem_cons_of_mem_run s0 rest (fun x => x.name == s0.name)
    rcases List.mem_append.mp hs with hs | hs
    · rcases List.mem_map.mp hs with ⟨c, hc, rfl⟩
      apply deepOk_mkChunkGroup
      · exact hl _ (hsub _ (mem_of_mem_chunkByKey _ _ c hc c.1 (Or.inl rfl)))
      · intro x hx
        exact hl _ (hsub _ (mem_of_mem_chunkByKey _ _ c hc x (Or.inr hx)))
    · exact ih (fun x hx => hl x
        (List.mem_cons_of_mem _ ((List.dropWhile_sublist _).subset hx))) s hs
  | case3 s0 rest h ih =>
    intro s hs
    simp only [group_by_column_chunk, h, if_true, if_false, Bool.false_eq_true] at hs
    rcases List.mem_cons.mp hs with rfl | hs
    · exact hl s (List.mem_cons_self _ _)
    · exact ih (fun x hx => hl x (List.mem_cons_of_mem _ hx)) s hs

theorem deepOk_group_by_row_group (om : OffMap) (l : List Seg)
    (hl : ∀ s ∈ l, DeepOk s) :
    ∀ s ∈ group_by_row_group om l, DeepOk s := by
  induction l using group_by_row_group.induct om with
  | case1 =>
    intro s hs
    simp [group_by_row_group] at hs
  | case2 s0 rest h ih =>
    intro s hs
    simp only [group_by_row_group, h, if_true] at hs
    have hsub := mem_cons_of_mem_run s0 rest (fun x => x.name == s0.name)
    rcases List.mem_append.mp hs with hs | hs
    · rcases List.mem_map.mp hs with ⟨c, hc, rfl⟩
      apply deepOk_mkRowGroupSeg
      · exact hl _ (hsub _ (mem_of_mem_chunkByKey _ _ c hc c.1 (Or.inl rfl)))
      · intro x hx
        exact hl _ (hsub _ (mem_of_mem_chunkByKey _ _ c hc x (Or.inr hx)))
    · exact ih (fun x hx => hl x
        (List.mem_cons_of_mem _ ((List.dropWhile_sublist _).subset hx))) s hs
  | case3 s0 rest h ih =>
    intro s hs
    simp only [group_by_row_group, h, if_true, if_false, Bool.false_eq_true] at hs
    rcases List.mem_cons.mp hs with rfl | hs
    · exact hl s (List.mem_cons_self _ _)
    · exact ih (fun x hx => hl x (List.mem_cons_of_mem _ hx)) s hs

theorem deepOk_group_by_type (l : List Seg) (hl : ∀ s ∈ l, DeepOk s) :
    ∀ s ∈ group_by_type l, DeepOk s := by
  induction l using group_by_type.induct with
  | case1 =>
    intro s hs
    simp [group_by_type] at hs
  | case2 s0 rest h ih =>
    intro s hs
    simp only [group_by_type, h, if_true] at hs
    have hsub := mem_cons_of_mem_run s0 rest (fun x => x.name == s0.name)
    rcases List.mem_cons.mp hs with rfl | hs
    · apply deepOk_mkTypeGroupSeg
      · exact hl s0 (List.mem_cons_self _ _)
      · intro x hx
        exact hl _ (hsub _ (List.mem_cons_of_mem _ hx))
    · exact ih (fun x hx => hl x
        (List.mem_cons_of_mem _ ((List.dropWhile_sublist _).subset hx))) s hs
  | case3 s0 rest h ih =>
    intro s hs
    simp only [group_by_type, h, if_true, if_false, Bool.false_eq_true] at hs
    rcases List.mem_cons.mp hs with rfl | hs
    · exact hl s (List.mem_cons_self _ _)
    · exact ih (fun x hx => hl x (List.mem_cons_of_mem _ hx)) s hs

/-- C10: `group_segments` preserves total byte coverage — the sum of the
`length` fields of its result equals the sum over the input segments — and
every grouped segment it creates (at any nesting depth) has `length` equal
to the sum of its member segments' lengths and `offset` equal to its first
member's offset (`DeepOk`), provided the input segments are themselves
well-formed in that sense (vacuously true of the walker's output, which
carries no reserved grouping names). -/
theorem group_segments_coverage :
    (∀ (fuel : Nat) (segments : List Seg) (footer : Footer),
      sumLens (group_segments fuel segments footer) = sumLens segments) ∧
    (∀ (fuel : Nat) (segments : List Seg) (footer : Footer),
      (∀ s ∈ segments, DeepOk s) →
      ∀ s ∈ group_segments fuel segments footer, DeepOk s) := by
  constructor
  · intro fuel segs f
    unfold group_segments
    rw [sumLens_group_by_type, sumLens_group_by_row_group,
      sumLens_group_by_column_chunk, sumLens_group_page_header_and_data]
  · intro fuel segs f h
    unfold group_segments
    exact deepOk_group_by_type _
      (deepOk_group_by_row_group _ _
        (deepOk_group_by_column_chunk _ _
          (deepOk_group_page_header_and_data _ h)))

def witnessCps : Seg := .mk "compressed_page_size" 5 1 (some 20) [] none none none

def witnessPh : Seg := .mk ":page_header" 4 10 none [witnessCps] none none none

def witnessPd : Seg := .mk ":page_data" 14 20 none [] none none none

def witnessMd : MetaData :=
  ⟨some ["c"], some .INT32, none, some 10, none, none, [], none, none, none, 4,
    none, none⟩

def witnessFooter : Footer := ⟨[⟨[⟨some witnessMd, none, none⟩]⟩]⟩

/-- Witness for `group_segments_coverage` on a two-segment input (one page
header and its page data) and a one-chunk footer. -/
theorem group_segments_coverage_witness :
    sumLens (group_segments 2 [witnessPh, witnessPd] witnessFooter)
        = sumLens [witnessPh, witnessPd] ∧
      ∀ s ∈ group_segments 2 [witnessPh, witnessPd] witnessFooter, DeepOk s := by
  constructor
  · exact group_segments_coverage.1 2 [witnessPh, witnessPd] witnessFooter
  · apply group_segments_coverage.2
    intro s hs
    rcases List.mem_cons.mp hs with rfl | hs
    · apply DeepOk.intro
      · intro hmem
        exact absurd hmem (by decide)
      · intro c hc
        rcases List.mem_singleton.mp hc with rfl
        apply DeepOk.intro
        · intro hmem
          exact absurd hmem (by decide)
        · intro c2 hc2
          cases hc2
    · rcases List.mem_singleton.mp hs with rfl
      apply DeepOk.intro
      · intro hmem
        exact absurd hmem (by decide)
      · intro c hc
        cases hc

/-! ## Claim C3 — `aggregate_column_chunks` (`_html.py` 147–249)

The aggregation groups column chunks by `path_in_schema`, accumulates the
numeric fields and statistics, and finally re-encodes `min_value` /
`max_value`.  Statistics decoding and value comparison can raise
(`struct.error`, `TypeError`, `decimal.InvalidOperation`); a raise
propagates out of the whole function, modelled by `Option` threading
(`none` = raised).

Python's `<` / `>` on decoded statistics values (`pyLt`; the `>` of the
max update is evaluated as the mirrored `<`, which agrees with Python on
every case below):
* `int`, `Decimal`, `bool` and `float` values compare numerically and
  exactly (sign/exponent/mantissa as a rational, `±inf`); a comparison of
  a float NaN with `int`, `bool` or `float` is `False`, while one with a
  `Decimal` raises `decimal.InvalidOperation` (the default context traps
  the signal) — `none`.
* `bytes` compare lexicographically with `bytes`.
* A comparison between `bytes` and a numeric value raises `TypeError` —
  `none` (reachable from a footer whose chunks of one column disagree
  about the physical type). -/

/-- The numeric value of a decoded scalar, when it has one. -/
inductive NumVal where
  | negInf
  | rat (q : ℚ)
  | posInf
  | nan

/-- Exact value of a Python float, by its 64-bit pattern (11-bit exponent,
52-bit mantissa, bias 1023). -/
def floatNumVal (bits : Nat) : NumVal :=
  let sign : Nat := bits / 2 ^ 63 % 2
  let ex : Nat := bits / 2 ^ 52 % 2 ^ 11
  let mant : Nat := bits % 2 ^ 52
  if ex = 2 ^ 11 - 1 then
    if mant = 0 then (if sign = 1 then .negInf else .posInf) else .nan
  else
    let mag : ℚ :=
      if ex = 0 then (mant : ℚ) * 2 ^ (-1074 : ℤ)
      else ((2 ^ 52 + mant : ℕ) : ℚ) * 2 ^ ((ex : ℤ) - 1075)
    .rat (if sign = 1 then -mag else mag)

/-- Whether a 64-bit pattern is a NaN. -/
def isNanBits (bits : Nat) : Bool :=
  bits / 2 ^ 52 % 2 ^ 11 == 2 ^ 11 - 1 && bits % 2 ^ 52 != 0

def StatsValue.numVal : StatsValue → Option NumVal
  | .int i => some (.rat (i : ℚ))
  | .dec c e => some (.rat ((c : ℚ) * (10 : ℚ) ^ (e : ℤ)))
  | .bool b => some (.rat (if b then 1 else 0))
  | .float bits => some (floatNumVal bits)
  | .bytes _ => none

def numLt : NumVal → NumVal → Bool
  | .nan, _ => false
  | _, .nan => false
  | .negInf, .negInf => false
  | .negInf, _ => true
  | _, .negInf => false
  | .posInf, _ => false
  | .rat _, .posInf => true
  | .rat a, .rat b => decide (a < b)

/-- Lexicographic `<` on Python `bytes`. -/
def bytesLt : List Nat → List Nat → Bool
  | [], [] => false
  | [], _ :: _ => true
  | _ :: _, [] => false
  | a :: as2, b :: bs2 => if a < b then true else if a = b then bytesLt as2 bs2 else false

/-- Python `a < b` between decoded statistics values; `none` models a
raise (see the section comment). -/
def pyLt (a b : StatsValue) : Option Bool :=
  match a.numVal, b.numVal with
  | some x, some y =>
    match a, b with
    | .float fa, .dec _ _ => if isNanBits fa then none else some (numLt x y)
    | .dec _ _, .float fb => if isNanBits fb then none else some (numLt x y)
    | _, _ => some (numLt x y)
  | _, _ =>
    match a, b with
    | .bytes x, .bytes y => some (bytesLt x y)
    | _, _ => none

/-! ### The aggregation state -/

/-- The running statistics aggregate (`columns[path]["statistics"]`). -/
structure AggStats where
  null_count : Option Int
  min_value : Option StatsValue
  max_value : Option StatsValue
  is_min_value_exact : Option Bool
  is_max_value_exact : Option Bool

def emptyAggStats : AggStats := ⟨none, none, none, none, none⟩

/-- One entry of the `columns` dict.  Python `set`s (`encodings`,
`codecs`) are modelled as insertion-ordered duplicate-free lists;
`encoding_stats` is the dict keyed by `(page_type, encoding)`. -/
structure ColAgg where
  path_in_schema : List String
  type : Option PhysType
  type_length : Option Int
  num_values : Int
  total_uncompressed_size : Int
  total_compressed_size : Int
  encodings : List String
  encoding_stats : List ((String × String) × EncodingStat)
  codecs : List (Option String)
  statistics : Option AggStats

/-- The fresh entry created on a path's first occurrence
(`_html.py` 158–169). -/
def freshCol (path : List String) (md : MetaData) : ColAgg :=
  { path_in_schema := path
    type := md.type
    type_length := md.type_length
    num_values := 0
    total_uncompressed_size := 0
    total_compressed_size := 0
    encodings := []
    encoding_stats := []
    codecs := []
    statistics := none }

instance : Inhabited ColAgg := ⟨freshCol [] defaultMd⟩

/-- `set.add`. -/
def setAdd {α : Type} [BEq α] (l : List α) (x : α) : List α :=
  if l.contains x then l else l ++ [x]

/-- `set.update`. -/
def setUpdate {α : Type} [BEq α] (l : List α) (xs : List α) : List α :=
  xs.foldl setAdd l

/-- One `encoding_stats` item folded into the per-key counters
(`_html.py` 217–228). -/
def encStatsAdd (m : List ((String × String) × EncodingStat)) (it : EncodingStat) :
    List ((String × String) × EncodingStat) :=
  if (m.find? (fun e => e.1 == (it.page_type, it.encoding))).isSome then
    m.map (fun e =>
      if e.1 == (it.page_type, it.encoding) then
        (e.1, ⟨e.2.page_type, e.2.encoding, e.2.count + it.count⟩)
      else e)
  else m ++ [((it.page_type, it.encoding), ⟨it.page_type, it.encoding, it.count⟩)]

/-- `stats_aggr["null_count"] = stats_aggr.get("null_count", 0) + stats["null_count"]`
(when present). -/
def updNull (st : AggStats) (v : Option Int) : AggStats :=
  match v with
  | some nc => { st with null_count := some (st.null_count.getD 0 + nc) }
  | none => st

def updMinEx (st : AggStats) (v : Option Bool) : AggStats :=
  match v with
  | some e => { st with is_min_value_exact := some (st.is_min_value_exact.getD true && e) }
  | none => st

def updMaxEx (st : AggStats) (v : Option Bool) : AggStats :=
  match v with
  | some e => { st with is_max_value_exact := some (st.is_max_value_exact.getD true && e) }
  | none => st

/-- The spec-side running minimum over decoded candidates: the first value
wins when the comparison is false (ties, NaN against non-`Decimal`). -/
def pickMin (acc : Option StatsValue) (d : StatsValue) : Option StatsValue :=
  match acc with
  | none => some d
  | some cur => if (pyLt d cur).getD false then some d else some cur

def pickMax (acc : Option StatsValue) (d : StatsValue) : Option StatsValue :=
  match acc with
  | none => some d
  | some cur => if (pyLt cur d).getD false then some d else some cur

/-- The `min_value` update (`_html.py` 191–198): decode with the chunk's
own physical type and the column's logical type; the dict-key test
short-circuits the comparison.  `none` propagates a raise from the decode
or the comparison. -/
def updMinM (lt : Option LogicalType) (t : Option PhysType) (st : AggStats)
    (mv : Option (List Nat)) : Option AggStats :=
  match mv, t with
  | some mv0, some t0 =>
    (decode_stats_value mv0 t0 lt).bind fun d =>
      match st.min_value with
      | none => some { st with min_value := some d }
      | some cur =>
        (pyLt d cur).map fun isLt =>
          if isLt then { st with min_value := some d } else st
  | _, _ => some st

/-- The `max_value` update (`_html.py` 199–206); Python's
`decoded > current` is the mirrored `<`. -/
def updMaxM (lt : Option LogicalType) (t : Option PhysType) (st : AggStats)
    (mv : Option (List Nat)) : Option AggStats :=
  match mv, t with
  | some mv0, some t0 =>
    (decode_stats_value mv0 t0 lt).bind fun d =>
      match st.max_value with
      | none => some { st with max_value := some d }
      | some cur =>
        (pyLt cur d).map fun isGt =>
          if isGt then { st with max_value := some d } else st
  | _, _ => some st

/-- The statistics block of the accumulation (`_html.py` 182–216); called
only when the chunk's statistics dict is truthy.  `lt` is the column's
logical type, `t` the chunk's own `type`.  The five updates are applied in
source order, raising where the Python code raises; `setdefault` is the
`st.getD emptyAggStats`. -/
def accumStatsM (lt : Option LogicalType) (t : Option PhysType)
    (st : Option AggStats) (s : Statistics) : Option AggStats :=
  (updMinM lt t (updNull (st.getD emptyAggStats) s.null_count) s.min_value).bind
    fun a1 => (updMaxM lt t a1 s.max_value).map
      fun a2 => updMaxEx (updMinEx a2 s.is_min_value_exact) s.is_max_value_exact

/-- The tail of one chunk's accumulation: the `encoding_stats` counters
(`_html.py` 217–228) and the `codecs` set (229–231). -/
def encAdd (md : MetaData) (x : ColAgg) : ColAgg :=
  match md.encoding_stats with
  | some es =>
    if es.isEmpty then { x with codecs := setAdd x.codecs md.codec }
    else { x with
      encoding_stats := es.foldl encStatsAdd x.encoding_stats
      codecs := setAdd x.codecs md.codec }
  | none => { x with codecs := setAdd x.codecs md.codec }

/-- Everything one chunk's metadata contributes to its column's entry
(`_html.py` 170–231); `none` = a raise inside the statistics block. -/
def accumChunkM (ltm : List String → Option LogicalType) (col : ColAgg)
    (md : MetaData) : Option ColAgg :=
  let c1 := { col with
    num_values := col.num_values + md.num_values.getD 0
    total_uncompressed_size :=
      col.total_uncompressed_size + md.total_uncompressed_size.getD 0
    total_compressed_size :=
      col.total_compressed_size + md.total_compressed_size.getD 0
    encodings := setUpdate col.encodings md.encodings }
  let c2? : Option ColAgg :=
    match md.statistics with
    | some s =>
      if s.truthy then
        (accumStatsM (ltm col.path_in_schema) md.type c1.statistics s).map
          fun st => { c1 with statistics := some st }
      else some c1
    | none => some c1
  c2?.map (encAdd md)

/-- Sequential effectful map: the first raise aborts (Python's loop
over `columns.items()` and the dict updates). -/
def listMapO {α β : Type} (f : α → Option β) : List α → Option (List β)
  | [] => some []
  | x :: xs => (f x).bind fun y => (listMapO f xs).map fun ys => y :: ys

/-- `columns[path]` update: accumulate into the existing entry, or create
and immediately accumulate into a fresh one. -/
def updateColM (ltm : List String → Option LogicalType) (cols : List ColAgg)
    (path : List String) (md : MetaData) : Option (List ColAgg) :=
  if cols.any (fun c => c.path_in_schema == path) then
    listMapO
      (fun c => if c.path_in_schema == path then accumChunkM ltm c md else some c)
      cols
  else (accumChunkM ltm (freshCol path md) md).map fun c => cols ++ [c]

/-- One column chunk of the footer (chunks without `meta_data` or without
`path_in_schema` are skipped); the `Option` state carries an earlier
raise. -/
def implStepO (ltm : List String → Option LogicalType)
    (o : Option (List ColAgg)) (cc : ColumnChunk) : Option (List ColAgg) :=
  o.bind fun cols =>
    match cc.meta_data with
    | none => some cols
    | some md =>
      match md.path_in_schema with
      | none => some cols
      | some path => updateColM ltm cols path md

/-- `encode_stats_value` as the re-encoding phase calls it: `col["type"]`
can be `None`, in which case every branch of the Python function falls
through and the value is returned unchanged. -/
def encode_stats_value_opt (v : StatsValue) (t : Option PhysType) (tl : Option Int)
    (lt : Option LogicalType) : Option StatsValue :=
  match t with
  | some t0 => encode_stats_value v t0 tl lt
  | none => some v

/-- The re-encoding phase for one entry (`_html.py` 232–248); `none` means
the Python call raised. -/
def encodeColStats (ltm : List String → Option LogicalType) (c : ColAgg) :
    Option ColAgg :=
  match c.statistics with
  | none => some c
  | some st =>
    match st.min_value with
    | none =>
      match st.max_value with
      | none => some c
      | some mx =>
        match encode_stats_value_opt mx c.type c.type_length (ltm c.path_in_schema) with
        | none => none
        | some mx2 => some { c with statistics := some { st with max_value := some mx2 } }
    | some mn =>
      match encode_stats_value_opt mn c.type c.type_length (ltm c.path_in_schema) with
      | none => none
      | some mn2 =>
        match st.max_value with
        | none => some { c with statistics := some { st with min_value := some mn2 } }
        | some mx =>
          match encode_stats_value_opt mx c.type c.type_length (ltm c.path_in_schema) with
          | none => none
          | some mx2 =>
            let st2 : AggStats := { st with min_value := some mn2, max_value := some mx2 }
            some { c with statistics := some st2 }

/-- All column chunks of the footer, in row-group order then column
order. -/
def allChunks (f : Footer) : List ColumnChunk :=
  (f.row_groups.map RowGroup.columns).flatten

/-- `_html.py:aggregate_column_chunks`: accumulate over all chunks, then
re-encode every entry's min/max; `none` = the Python function raised. -/
def aggregate_column_chunks (f : Footer)
    (ltm : List String → Option LogicalType) : Option (List ColAgg) :=
  ((allChunks f).foldl (implStepO ltm) (some [])).bind
    (listMapO (encodeColStats ltm))

/-! ### Grouping by `path_in_schema`, stated directly

`specAccumM` computes, for each schema path in first-occurrence order, the
fold of `accumChunkM` over exactly the chunks of that path — the
"group column chunks across row groups by `path_in_schema`" reading of the
claim, with raises propagated.  The refinement theorem below proves the
implementation's interleaved dict-update equal to it. -/

/-- The `(path, metadata)` pairs of the chunks that participate
(chunks lacking `meta_data` or `path_in_schema` are skipped). -/
def validMetas (f : Footer) : List (List String × MetaData) :=
  (allChunks f).filterMap (fun cc =>
    cc.meta_data.bind (fun md => md.path_in_schema.map (fun p => (p, md))))

def pathStep (acc : List (List String)) (e : List String × MetaData) :
    List (List String) :=
  if acc.contains e.1 then acc else acc ++ [e.1]

/-- The distinct paths, in first-occurrence order. -/
def orderedPaths (l : List (List String × MetaData)) : List (List String) :=
  l.foldl pathStep []

/-- The metadata of the chunks of one path, in footer order. -/
def metasFor (l : List (List String × MetaData)) (p : List String) :
    List MetaData :=
  (l.filter (fun e => e.1 == p)).map (fun e => e.2)

/-- `accumChunkM` lifted to an `Option` accumulator. -/
def accumChunkO (ltm : List String → Option LogicalType)
    (o : Option ColAgg) (md : MetaData) : Option ColAgg :=
  o.bind fun c => accumChunkM ltm c md

/-- The aggregate of one path: fold `accumChunkM` over its chunks, starting
from the fresh entry built from its first chunk. -/
def specEntryM (ltm : List String → Option LogicalType)
    (l : List (List String × MetaData)) (p : List String) : Option ColAgg :=
  (metasFor l p).foldl (accumChunkO ltm)
    (some (freshCol p ((metasFor l p).headD defaultMd)))

def specAccumM (ltm : List String → Option LogicalType)
    (l : List (List String × MetaData)) : Option (List ColAgg) :=
  listMapO (specEntryM ltm l) (orderedPaths l)

/-! ### The claim-shaped per-field candidates -/

/-- One chunk's `null_count` contribution (chunks with truthy statistics
carrying the key). -/
def nullCand (m : MetaData) : Option Int :=
  m.statistics.bind fun s => if s.truthy then s.null_count else none

def nullCounts (ms : List MetaData) : List Int :=
  ms.filterMap nullCand

/-- One chunk's decoded `min_value` candidate (truthy statistics, a
`min_value`, a physical type and a successful decode per the §4.6 codec —
on any run that does not raise, every reached decode succeeds). -/
def minCand (lt : Option LogicalType) (m : MetaData) : Option StatsValue :=
  match m.statistics, m.type with
  | some s, some t =>
    if s.truthy then s.min_value.bind (fun mv => decode_stats_value mv t lt)
    else none
  | _, _ => none

def minCandidates (lt : Option LogicalType) (ms : List MetaData) :
    List StatsValue :=
  ms.filterMap (minCand lt)

def maxCand (lt : Option LogicalType) (m : MetaData) : Option StatsValue :=
  match m.statistics, m.type with
  | some s, some t =>
    if s.truthy then s.max_value.bind (fun mv => decode_stats_value mv t lt)
    else none
  | _, _ => none

def maxCandidates (lt : Option LogicalType) (ms : List MetaData) :
    List StatsValue :=
  ms.filterMap (maxCand lt)

def minExCand (m : MetaData) : Option Bool :=
  m.statistics.bind fun s => if s.truthy then s.is_min_value_exact else none

def minExactFlags (ms : List MetaData) : List Bool :=
  ms.filterMap minExCand

def maxExCand (m : MetaData) : Option Bool :=
  m.statistics.bind fun s => if s.truthy then s.is_max_value_exact else none

def maxExactFlags (ms : List MetaData) : List Bool :=
  ms.filterMap maxExCand

/-- What one chunk's metadata does to the statistics aggregate. -/
def stStep1 (lt : Option LogicalType) (st : Option AggStats) (m : MetaData) :
    Option (Option AggStats) :=
  match m.statistics with
  | some s => if s.truthy then (accumStatsM lt m.type st s).map some else some st
  | none => some st

/-- `stStep1` lifted to an `Option` accumulator. -/
def statsStepO (lt : Option LogicalType) (o : Option (Option AggStats))
    (m : MetaData) : Option (Option AggStats) :=
  o.bind fun st => stStep1 lt st m

/-! ### `listMapO` bookkeeping -/

theorem listMapO_eq_none_iff {α β : Type} (f : α → Option β) (xs : List α) :
    listMapO f xs = none ↔ ∃ x ∈ xs, f x = none := by
  induction xs with
  | nil =>
    constructor
    · intro h
      cases h
    · rintro ⟨x, hx, _⟩
      cases hx
  | cons x t ih =>
    simp only [listMapO]
    cases hf : f x with
    | none =>
      simp only [Option.none_bind]
      constructor
      · intro _
        exact ⟨x, List.mem_cons_self _ _, hf⟩
      · intro _
        trivial
    | some y =>
      simp only [Option.some_bind]
      rw [Option.map_eq_none', ih]
      constructor
      · rintro ⟨z, hz, hfz⟩
        exact ⟨z, List.mem_cons_of_mem _ hz, hfz⟩
      · rintro ⟨z, hz, hfz⟩
        rcases List.mem_cons.mp hz with rfl | hz2
        · rw [hf] at hfz
          cases hfz
        · exact ⟨z, hz2, hfz⟩

theorem listMapO_eq_some_iff {α β : Type} [Inhabited β] (f : α → Option β)
    (xs : List α) (ys : List β) :
    listMapO f xs = some ys
      ↔ (∀ x ∈ xs, f x ≠ none)
        ∧ ys = xs.map (fun x => (f x).getD default) := by
  induction xs generalizing ys with
  | nil =>
    constructor
    · intro h
      refine ⟨fun x hx => absurd hx (List.not_mem_nil x), ?_⟩
      exact (Option.some.inj h).symm
    · rintro ⟨_, h⟩
      rw [h]
      rfl
  | cons x t ih =>
    simp only [listMapO]
    cases hf : f x with
    | none =>
      simp only [Option.none_bind]
      constructor
      · intro h
        cases h
      · rintro ⟨hall, _⟩
        exact absurd hf (hall x (List.mem_cons_self _ _))
    | some y =>
      simp only [Option.some_bind]
      cases hm : listMapO f t with
      | none =>
        simp only [Option.map_none']
        constructor
        · intro h
          cases h
        · rintro ⟨hall, _⟩
          obtain ⟨z, hz, hfz⟩ := (listMapO_eq_none_iff f t).mp hm
          exact absurd hfz (hall z (List.mem_cons_of_mem _ hz))
      | some ys0 =>
        simp only [Option.map_some']
        obtain ⟨hall0, hys0⟩ := (ih ys0).mp hm
        constructor
        · intro h
          obtain rfl := Option.some.inj h
          refine ⟨?_, ?_⟩
          · intro z hz
            rcases List.mem_cons.mp hz with rfl | hz2
            · intro hc
              rw [hf] at hc
              cases hc
            · exact hall0 z hz2
          · rw [List.map_cons, hf, ← hys0]
            rfl
        · rintro ⟨_, hys⟩
          rw [List.map_cons, hf, ← hys0] at hys
          rw [hys]
          rfl

theorem listMapO_map {α β γ : Type} (f : β → Option γ) (g : α → β)
    (xs : List α) : listMapO f (xs.map g) = listMapO (fun x => f (g x)) xs := by
  induction xs with
  | nil => rfl
  | cons x t ih =>
    simp only [List.map_cons, listMapO, ih]

theorem listMapO_congr {α β : Type} (f g : α → Option β) (xs : List α)
    (h : ∀ x ∈ xs, f x = g x) : listMapO f xs = listMapO g xs := by
  induction xs with
  | nil => rfl
  | cons x t ih =>
    simp only [listMapO]
    rw [h x (List.mem_cons_self _ _),
      ih (fun z hz => h z (List.mem_cons_of_mem _ hz))]

theorem listMapO_append_singleton {α β : Type} (f : α → Option β)
    (xs : List α) (y : α) :
    listMapO f (xs ++ [y])
      = (listMapO f xs).bind fun ys => (f y).map fun z => ys ++ [z] := by
  induction xs with
  | nil =>
    simp only [List.nil_append, listMapO]
    cases hf : f y <;> rfl
  | cons x t ih =>
    show (f x).bind (fun v => (listMapO f (t ++ [y])).map fun ys => v :: ys)
      = ((f x).bind fun v => (listMapO f t).map fun ys => v :: ys).bind
          fun ys => (f y).map fun z => ys ++ [z]
    rw [ih]
    cases hf : f x with
    | none => rfl
    | some v =>
      simp only [Option.some_bind]
      cases hm : listMapO f t with
      | none => rfl
      | some ys =>
        simp only [Option.some_bind, Option.map_some']
        cases hy : f y <;> rfl

/-! ### Path bookkeeping (ported unchanged from the dict semantics) -/

theorem mem_foldl_pathStep (l : List (List String × MetaData)) :
    ∀ (acc : List (List String)) (p : List String),
      p ∈ l.foldl pathStep acc ↔ p ∈ acc ∨ ∃ e ∈ l, e.1 = p := by
  induction l with
  | nil => simp
  | cons e t ih =>
    intro acc p
    rw [List.foldl_cons, ih]
    unfold pathStep
    by_cases hc : acc.contains e.1
    · rw [if_pos hc]
      have he : e.1 ∈ acc := by simpa using hc
      constructor
      · rintro (h | h)
        · exact Or.inl h
        · exact Or.inr (by
            obtain ⟨x, hx, hxp⟩ := h
            exact ⟨x, List.mem_cons_of_mem _ hx, hxp⟩)
      · rintro (h | ⟨x, hx, hxp⟩)
        · exact Or.inl h
        · rcases List.mem_cons.mp hx with rfl | hx
          · exact Or.inl (hxp ▸ he)
          · exact Or.inr ⟨x, hx, hxp⟩
    · rw [if_neg hc]
      simp only [List.mem_append, List.mem_singleton]
      constructor
      · rintro (⟨h | h⟩ | h)
        · exact Or.inl h
        · exact Or.inr ⟨e, List.mem_cons_self _ _, h.symm⟩
        · obtain ⟨x, hx, hxp⟩ := h
          exact Or.inr ⟨x, List.mem_cons_of_mem _ hx, hxp⟩
      · rintro (h | ⟨x, hx, hxp⟩)
        · exact Or.inl (Or.inl h)
        · rcases List.mem_cons.mp hx with rfl | hx
          · exact Or.inl (Or.inr hxp.symm)
          · exact Or.inr ⟨x, hx, hxp⟩

theorem mem_orderedPaths (l : List (List String × MetaData)) (p : List String) :
    p ∈ orderedPaths l ↔ ∃ e ∈ l, e.1 = p := by
  unfold orderedPaths
  rw [mem_foldl_pathStep]
  simp

theorem metasFor_append_singleton (l : List (List String × MetaData))
    (e : List String × MetaData) (p : List String) :
    metasFor (l ++ [e]) p
      = metasFor l p ++ (if e.1 == p then [e.2] else []) := by
  unfold metasFor
  rw [List.filter_append]
  by_cases h : e.1 == p
  · simp [h]
  · simp [h]

theorem metasFor_eq_nil (l : List (List String × MetaData)) (p : List String)
    (h : ¬ ∃ e ∈ l, e.1 = p) : metasFor l p = [] := by
  unfold metasFor
  have : l.filter (fun e => e.1 == p) = [] := by
    rw [List.filter_eq_nil_iff]
    intro e he
    simp only [beq_iff_eq]
    exact fun hp => h ⟨e, he, hp⟩
  rw [this]
  rfl

theorem metasFor_ne_nil (l : List (List String × MetaData)) (p : List String)
    (h : ∃ e ∈ l, e.1 = p) : metasFor l p ≠ [] := by
  obtain ⟨e, he, hp⟩ := h
  unfold metasFor
  intro hnil
  have : e ∈ l.filter (fun x => x.1 == p) :=
    List.mem_filter.mpr ⟨he, by simp [hp]⟩
  rw [List.map_eq_nil_iff] at hnil
  rw [hnil] at this
  cases this

theorem headD_append_of_ne_nil {α : Type} (xs ys : List α) (d : α)
    (h : xs ≠ []) : (xs ++ ys).headD d = xs.headD d := by
  cases xs with
  | nil => exact absurd rfl h
  | cons x t => rfl

/-! ### Success-path facts about one chunk's accumulation -/

theorem encAdd_path (md : MetaData) (x : ColAgg) :
    (encAdd md x).path_in_schema = x.path_in_schema := by
  unfold encAdd
  split
  · split_ifs <;> rfl
  · rfl

theorem encAdd_statistics (md : MetaData) (x : ColAgg) :
    (encAdd md x).statistics = x.statistics := by
  unfold encAdd
  split
  · split_ifs <;> rfl
  · rfl

theorem accumChunkM_path (ltm : List String → Option LogicalType) (c : ColAgg)
    (md : MetaData) (c' : ColAgg) (h : accumChunkM ltm c md = some c') :
    c'.path_in_schema = c.path_in_schema := by
  unfold accumChunkM at h
  obtain ⟨c2, hc2, rfl⟩ := Option.map_eq_some'.mp h
  rw [encAdd_path]
  cases hs : md.statistics with
  | none =>
    rw [hs] at hc2
    simp only [] at hc2
    rw [← Option.some.inj hc2]
  | some s0 =>
    rw [hs] at hc2
    simp only [] at hc2
    split_ifs at hc2 with htr
    · obtain ⟨a, _, rfl⟩ := Option.map_eq_some'.mp hc2
      rfl
    · rw [← Option.some.inj hc2]

theorem accumChunkM_statistics (ltm : List String → Option LogicalType)
    (c : ColAgg) (md : MetaData) :
    (accumChunkM ltm c md).map ColAgg.statistics
      = stStep1 (ltm c.path_in_schema) c.statistics md := by
  unfold accumChunkM stStep1
  cases hs : md.statistics with
  | none =>
    simp only [Option.map_some', encAdd_statistics]
  | some s0 =>
    simp only []
    split_ifs with htr
    · rw [Option.map_map]
      cases ha : accumStatsM (ltm c.path_in_schema) md.type c.statistics s0 with
      | none => rfl
      | some a =>
        simp only [Option.map_some', Function.comp_apply, encAdd_statistics]
    · simp only [Option.map_some', encAdd_statistics]

theorem foldl_accumChunkO_none (ltm : List String → Option LogicalType)
    (ms : List MetaData) : ms.foldl (accumChunkO ltm) none = none := by
  induction ms with
  | nil => rfl
  | cons m t ih => exact ih

theorem foldl_statsStepO_none (lt : Option LogicalType)
    (ms : List MetaData) : ms.foldl (statsStepO lt) none = none := by
  induction ms with
  | nil => rfl
  | cons m t ih => exact ih

theorem foldl_accumChunkO_path (ltm : List String → Option LogicalType)
    (ms : List MetaData) :
    ∀ (init c : ColAgg), ms.foldl (accumChunkO ltm) (some init) = some c →
      c.path_in_schema = init.path_in_schema := by
  induction ms with
  | nil =>
    intro init c h
    rw [Option.some.inj h]
  | cons m t ih =>
    intro init c h
    rw [List.foldl_cons] at h
    cases hstep : accumChunkM ltm init m with
    | none =>
      rw [show accumChunkO ltm (some init) m = none from hstep] at h
      rw [foldl_accumChunkO_none] at h
      cases h
    | some c1 =>
      rw [show accumChunkO ltm (some init) m = some c1 from hstep] at h
      rw [ih c1 c h]
      exact accumChunkM_path ltm init m c1 hstep

theorem foldl_accumChunkO_statistics (ltm : List String → Option LogicalType)
    (ms : List MetaData) :
    ∀ (init c : ColAgg), ms.foldl (accumChunkO ltm) (some init) = some c →
      ms.foldl (statsStepO (ltm init.path_in_schema)) (some init.statistics)
        = some c.statistics := by
  induction ms with
  | nil =>
    intro init c h
    rw [Option.some.inj h]
    rfl
  | cons m t ih =>
    intro init c h
    rw [List.foldl_cons] at h
    cases hstep : accumChunkM ltm init m with
    | none =>
      rw [show accumChunkO ltm (some init) m = none from hstep] at h
      rw [foldl_accumChunkO_none] at h
      cases h
    | some c1 =>
      rw [show accumChunkO ltm (some init) m = some c1 from hstep] at h
      have hstat : stStep1 (ltm init.path_in_schema) init.statistics m
          = some c1.statistics := by
        rw [← accumChunkM_statistics, hstep]
        rfl
      rw [List.foldl_cons]
      rw [show statsStepO (ltm init.path_in_schema) (some init.statistics) m
          = some c1.statistics from hstat]
      have hpath := accumChunkM_path ltm init m c1 hstep
      have := ih c1 c h
      rwa [hpath] at this

/-! ### The grouping refinement -/

theorem specEntryM_path (ltm : List String → Option LogicalType)
    (l : List (List String × MetaData)) (p : List String) (c : ColAgg)
    (h : specEntryM ltm l p = some c) : c.path_in_schema = p := by
  unfold specEntryM at h
  rw [foldl_accumChunkO_path ltm (metasFor l p) _ c h]
  rfl

theorem specEntryM_append_same (ltm : List String → Option LogicalType)
    (t : List (List String × MetaData)) (e : List String × MetaData)
    (hmem : ∃ x ∈ t, x.1 = e.1) :
    specEntryM ltm (t ++ [e]) e.1
      = accumChunkO ltm (specEntryM ltm t e.1) e.2 := by
  unfold specEntryM
  rw [metasFor_append_singleton, if_pos (by simp)]
  have hne := metasFor_ne_nil t e.1 hmem
  rw [headD_append_of_ne_nil _ _ _ hne, List.foldl_append, List.foldl_cons,
    List.foldl_nil]

theorem specEntryM_append_other (ltm : List String → Option LogicalType)
    (t : List (List String × MetaData)) (e : List String × MetaData)
    (p : List String) (hne : p ≠ e.1) :
    specEntryM ltm (t ++ [e]) p = specEntryM ltm t p := by
  unfold specEntryM
  rw [metasFor_append_singleton, if_neg (by simp [Ne.symm hne]), List.append_nil]

theorem specEntryM_append_fresh (ltm : List String → Option LogicalType)
    (t : List (List String × MetaData)) (e : List String × MetaData)
    (hno : ¬ ∃ x ∈ t, x.1 = e.1) :
    specEntryM ltm (t ++ [e]) e.1
      = accumChunkM ltm (freshCol e.1 e.2) e.2 := by
  unfold specEntryM
  rw [metasFor_append_singleton, if_pos (by simp), metasFor_eq_nil t e.1 hno,
    List.nil_append]
  rfl

/-- One `(path, metadata)` pair folded into the `Option`-carrying
`columns` state. -/
def pairStepO (ltm : List String → Option LogicalType)
    (o : Option (List ColAgg)) (e : List String × MetaData) :
    Option (List ColAgg) :=
  o.bind fun cols => updateColM ltm cols e.1 e.2

theorem foldl_implStepO_eq (ltm : List String → Option LogicalType)
    (chunks : List ColumnChunk) (o : Option (List ColAgg)) :
    chunks.foldl (implStepO ltm) o
      = (chunks.filterMap (fun cc =>
          cc.meta_data.bind (fun md => md.path_in_schema.map (fun p => (p, md))))).foldl
          (pairStepO ltm) o := by
  induction chunks generalizing o with
  | nil => rfl
  | cons cc t ih =>
    rw [List.foldl_cons, List.filterMap_cons]
    cases hmd : cc.meta_data with
    | none =>
      simp only [implStepO, hmd]
      rw [show (o.bind fun cols => some cols) = o from by cases o <;> rfl]
      exact ih o
    | some md =>
      cases hp : md.path_in_schema with
      | none =>
        simp only [implStepO, hmd, hp, Option.some_bind, Option.map_none']
        rw [show (o.bind fun cols => some cols) = o from by cases o <;> rfl]
        exact ih o
      | some p =>
        simp only [implStepO, hmd, hp, Option.some_bind, Option.map_some']
        rw [List.foldl_cons]
        exact ih _

theorem pairs_foldl_eq_specAccumM (ltm : List String → Option LogicalType)
    (l : List (List String × MetaData)) :
    l.foldl (pairStepO ltm) (some []) = specAccumM ltm l := by
  induction l using List.reverseRecOn with
  | nil => rfl
  | append_singleton t e ih =>
    rw [List.foldl_append, List.foldl_cons, List.foldl_nil, ih]
    have hops : orderedPaths (t ++ [e]) = pathStep (orderedPaths t) e := by
      unfold orderedPaths
      rw [List.foldl_append, List.foldl_cons, List.foldl_nil]
    by_cases hc : e.1 ∈ orderedPaths t
    · have hcb : (orderedPaths t).contains e.1 = true := by simpa using hc
      have hpaths : orderedPaths (t ++ [e]) = orderedPaths t := by
        rw [hops]
        unfold pathStep
        rw [if_pos hcb]
      unfold specAccumM
      rw [hpaths]
      cases hacc : listMapO (specEntryM ltm t) (orderedPaths t) with
      | none =>
        obtain ⟨p0, hp0mem, hp0none⟩ := (listMapO_eq_none_iff _ _).mp hacc
        have hL : pairStepO ltm none e = none := rfl
        rw [hL]
        symm
        rw [listMapO_eq_none_iff]
        refine ⟨p0, hp0mem, ?_⟩
        by_cases hpe : p0 = e.1
        · subst hpe
          rw [specEntryM_append_same ltm t e ((mem_orderedPaths t e.1).mp hp0mem)]
          rw [hp0none]
          rfl
        · rw [specEntryM_append_other ltm t e p0 hpe]
          exact hp0none
      | some cols =>
        obtain ⟨hall, hcols⟩ := (listMapO_eq_some_iff _ _ _).mp hacc
        have hpathD : ∀ p ∈ orderedPaths t,
            ((specEntryM ltm t p).getD default).path_in_schema = p := by
          intro p hp
          cases hsp : specEntryM ltm t p with
          | none => exact absurd hsp (hall p hp)
          | some cpk => exact specEntryM_path ltm t p cpk hsp
        show updateColM ltm cols e.1 e.2 = _
        have hany : cols.any (fun c2 => c2.path_in_schema == e.1) = true := by
          rw [List.any_eq_true]
          refine ⟨(specEntryM ltm t e.1).getD default, ?_, ?_⟩
          · rw [hcols]
            exact List.mem_map_of_mem _ hc
          · simp [hpathD e.1 hc]
        unfold updateColM
        rw [if_pos hany]
        rw [hcols, listMapO_map]
        apply listMapO_congr
        intro p hp
        by_cases hpe : p = e.1
        · subst hpe
          rw [if_pos (by simp [hpathD e.1 hp])]
          rw [specEntryM_append_same ltm t e ((mem_orderedPaths t e.1).mp hp)]
          cases hsp : specEntryM ltm t e.1 with
          | none => exact absurd hsp (hall e.1 hp)
          | some cpk => rfl
        · rw [if_neg (by simp [hpathD p hp, hpe])]
          rw [specEntryM_append_other ltm t e p hpe]
          cases hsp : specEntryM ltm t p with
          | none => exact absurd hsp (hall p hp)
          | some cpk => rfl
    · have hcb : ¬ (orderedPaths t).contains e.1 = true := by simpa using hc
      have hpaths : orderedPaths (t ++ [e]) = orderedPaths t ++ [e.1] := by
        rw [hops]
        unfold pathStep
        rw [if_neg hcb]
      have hno : ¬ ∃ x ∈ t, x.1 = e.1 := by
        rw [← mem_orderedPaths]
        exact hc
      unfold specAccumM
      rw [hpaths, listMapO_append_singleton]
      have hsame : listMapO (specEntryM ltm (t ++ [e])) (orderedPaths t)
          = listMapO (specEntryM ltm t) (orderedPaths t) := by
        apply listMapO_congr
        intro p hp
        exact specEntryM_append_other ltm t e p (fun h => hc (h ▸ hp))
      rw [hsame, specEntryM_append_fresh ltm t e hno]
      cases hacc : listMapO (specEntryM ltm t) (orderedPaths t) with
      | none => rfl
      | some cols =>
        obtain ⟨hall, hcols⟩ := (listMapO_eq_some_iff _ _ _).mp hacc
        have hpathD : ∀ p ∈ orderedPaths t,
            ((specEntryM ltm t p).getD default).path_in_schema = p := by
          intro p hp
          cases hsp : specEntryM ltm t p with
          | none => exact absurd hsp (hall p hp)
          | some cpk => exact specEntryM_path ltm t p cpk hsp
        show updateColM ltm cols e.1 e.2 = _
        have hany : cols.any (fun c2 => c2.path_in_schema == e.1) = false := by
          rw [List.any_eq_false]
          intro c2 hcm
          rw [hcols] at hcm
          obtain ⟨p, hpmem, rfl⟩ := List.mem_map.mp hcm
          simp only [hpathD p hpmem, beq_iff_eq]
          exact fun h => hc (h ▸ hpmem)
        unfold updateColM
        rw [if_neg (show ¬ (cols.any (fun c2 => c2.path_in_schema == e.1) = true)
          from by rw [hany]; simp)]
        rfl

/-! ### Per-field behaviour of the statistics accumulation (success path) -/

theorem updNull_null (st : AggStats) (v : Option Int) :
    (updNull st v).null_count
      = match v with
        | some nc => some (st.null_count.getD 0 + nc)
        | none => st.null_count := by
  cases v <;> rfl

theorem updNull_min (st : AggStats) (v : Option Int) :
    (updNull st v).min_value = st.min_value := by cases v <;> rfl

theorem updNull_max (st : AggStats) (v : Option Int) :
    (updNull st v).max_value = st.max_value := by cases v <;> rfl

theorem updNull_minEx (st : AggStats) (v : Option Int) :
    (updNull st v).is_min_value_exact = st.is_min_value_exact := by cases v <;> rfl

theorem updNull_maxEx (st : AggStats) (v : Option Int) :
    (updNull st v).is_max_value_exact = st.is_max_value_exact := by cases v <;> rfl

theorem updMinEx_minEx (st : AggStats) (v : Option Bool) :
    (updMinEx st v).is_min_value_exact
      = match v with
        | some e0 => some (st.is_min_value_exact.getD true && e0)
        | none => st.is_min_value_exact := by
  cases v <;> rfl

theorem updMinEx_null (st : AggStats) (v : Option Bool) :
    (updMinEx st v).null_count = st.null_count := by cases v <;> rfl

theorem updMinEx_min (st : AggStats) (v : Option Bool) :
    (updMinEx st v).min_value = st.min_value := by cases v <;> rfl

theorem updMinEx_max (st : AggStats) (v : Option Bool) :
    (updMinEx st v).max_value = st.max_value := by cases v <;> rfl

theorem updMinEx_maxEx (st : AggStats) (v : Option Bool) :
    (updMinEx st v).is_max_value_exact = st.is_max_value_exact := by cases v <;> rfl

theorem updMaxEx_maxEx (st : AggStats) (v : Option Bool) :
    (updMaxEx st v).is_max_value_exact
      = match v with
        | some e0 => some (st.is_max_value_exact.getD true && e0)
        | none => st.is_max_value_exact := by
  cases v <;> rfl

theorem updMaxEx_null (st : AggStats) (v : Option Bool) :
    (updMaxEx st v).null_count = st.null_count := by cases v <;> rfl

theorem updMaxEx_min (st : AggStats) (v : Option Bool) :
    (updMaxEx st v).min_value = st.min_value := by cases v <;> rfl

theorem updMaxEx_max (st : AggStats) (v : Option Bool) :
    (updMaxEx st v).max_value = st.max_value := by cases v <;> rfl

theorem updMaxEx_minEx (st : AggStats) (v : Option Bool) :
    (updMaxEx st v).is_min_value_exact = st.is_min_value_exact := by cases v <;> rfl

theorem getD_null (st : Option AggStats) :
    (st.getD emptyAggStats).null_count = st.bind AggStats.null_count := by
  cases st <;> rfl

theorem getD_min (st : Option AggStats) :
    (st.getD emptyAggStats).min_value = st.bind AggStats.min_value := by
  cases st <;> rfl

theorem getD_max (st : Option AggStats) :
    (st.getD emptyAggStats).max_value = st.bind AggStats.max_value := by
  cases st <;> rfl

theorem getD_minEx (st : Option AggStats) :
    (st.getD emptyAggStats).is_min_value_exact
      = st.bind AggStats.is_min_value_exact := by
  cases st <;> rfl

theorem getD_maxEx (st : Option AggStats) :
    (st.getD emptyAggStats).is_max_value_exact
      = st.bind AggStats.is_max_value_exact := by
  cases st <;> rfl

theorem updMinM_some_shape (lt : Option LogicalType) (t : Option PhysType)
    (st : AggStats) (mv : Option (List Nat)) (a : AggStats)
    (h : updMinM lt t st mv = some a) :
    a.null_count = st.null_count ∧ a.max_value = st.max_value
      ∧ a.is_min_value_exact = st.is_min_value_exact
      ∧ a.is_max_value_exact = st.is_max_value_exact := by
  unfold updMinM at h
  split at h
  · rename_i mv0 t0
    cases hd : decode_stats_value mv0 t0 lt with
    | none =>
      rw [hd] at h
      cases h
    | some d =>
      rw [hd, Option.some_bind] at h
      split at h
      · rw [← Option.some.inj h]
        exact ⟨rfl, rfl, rfl, rfl⟩
      · rename_i cur hcur
        cases hp : pyLt d cur with
        | none =>
          rw [hp] at h
          cases h
        | some b =>
          rw [hp, Option.map_some'] at h
          rw [← Option.some.inj h]
          cases b <;> exact ⟨rfl, rfl, rfl, rfl⟩
  · rw [← Option.some.inj h]
    exact ⟨rfl, rfl, rfl, rfl⟩

theorem updMinM_some_min (lt : Option LogicalType) (t : Option PhysType)
    (st : AggStats) (mv : Option (List Nat)) (a : AggStats)
    (h : updMinM lt t st mv = some a) :
    a.min_value
      = t.elim st.min_value (fun t0 => mv.elim st.min_value (fun mv0 =>
          (decode_stats_value mv0 t0 lt).elim st.min_value
            (pickMin st.min_value))) := by
  cases mv with
  | none =>
    have h2 : st = a := Option.some.inj h
    subst h2
    cases t <;> rfl
  | some mv0 =>
    cases t with
    | none =>
      have h2 : st = a := Option.some.inj h
      subst h2
      rfl
    | some t0 =>
      show a.min_value
        = (decode_stats_value mv0 t0 lt).elim st.min_value (pickMin st.min_value)
      replace h : ((decode_stats_value mv0 t0 lt).bind fun d =>
          match st.min_value with
          | none => some { st with min_value := some d }
          | some cur =>
            (pyLt d cur).map fun isLt =>
              if isLt then { st with min_value := some d } else st) = some a := h
      cases hd : decode_stats_value mv0 t0 lt with
      | none =>
        rw [hd] at h
        cases h
      | some d =>
        rw [hd, Option.some_bind] at h
        show a.min_value = pickMin st.min_value d
        unfold pickMin
        cases hmv : st.min_value with
        | none =>
          replace h : some { st with min_value := some d } = some a := by
            rw [hmv] at h
            exact h
          have h2 := Option.some.inj h
          subst h2
          rfl
        | some cur =>
          replace h : ((pyLt d cur).map fun isLt =>
              if isLt then { st with min_value := some d } else st) = some a := by
            rw [hmv] at h
            exact h
          cases hp : pyLt d cur with
          | none =>
            rw [hp] at h
            cases h
          | some b =>
            rw [hp, Option.map_some'] at h
            have h2 := Option.some.inj h
            subst h2
            show (if b = true then ({ st with min_value := some d } : AggStats)
                else st).min_value
              = if (pyLt d cur).getD false = true then some d else some cur
            rw [hp]
            cases b
            · rw [if_neg (by decide), if_neg (by decide)]
              exact hmv
            · rw [if_pos (by decide), if_pos (by decide)]

theorem updMaxM_some_shape (lt : Option LogicalType) (t : Option PhysType)
    (st : AggStats) (mv : Option (List Nat)) (a : AggStats)
    (h : updMaxM lt t st mv = some a) :
    a.null_count = st.null_count ∧ a.min_value = st.min_value
      ∧ a.is_min_value_exact = st.is_min_value_exact
      ∧ a.is_max_value_exact = st.is_max_value_exact := by
  unfold updMaxM at h
  split at h
  · rename_i mv0 t0
    cases hd : decode_stats_value mv0 t0 lt with
    | none =>
      rw [hd] at h
      cases h
    | some d =>
      rw [hd, Option.some_bind] at h
      split at h
      · rw [← Option.some.inj h]
        exact ⟨rfl, rfl, rfl, rfl⟩
      · rename_i cur hcur
        cases hp : pyLt cur d with
        | none =>
          rw [hp] at h
          cases h
        | some b =>
          rw [hp, Option.map_some'] at h
          rw [← Option.some.inj h]
          cases b <;> exact ⟨rfl, rfl, rfl, rfl⟩
  · rw [← Option.some.inj h]
    exact ⟨rfl, rfl, rfl, rfl⟩

theorem updMaxM_some_max (lt : Option LogicalType) (t : Option PhysType)
    (st : AggStats) (mv : Option (List Nat)) (a : AggStats)
    (h : updMaxM lt t st mv = some a) :
    a.max_value
      = t.elim st.max_value (fun t0 => mv.elim st.max_value (fun mv0 =>
          (decode_stats_value mv0 t0 lt).elim st.max_value
            (pickMax st.max_value))) := by
  cases mv with
  | none =>
    have h2 : st = a := Option.some.inj h
    subst h2
    cases t <;> rfl
  | some mv0 =>
    cases t with
    | none =>
      have h2 : st = a := Option.some.inj h
      subst h2
      rfl
    | some t0 =>
      show a.max_value
        = (decode_stats_value mv0 t0 lt).elim st.max_value (pickMax st.max_value)
      replace h : ((decode_stats_value mv0 t0 lt).bind fun d =>
          match st.max_value with
          | none => some { st with max_value := some d }
          | some cur =>
            (pyLt cur d).map fun isGt =>
              if isGt then { st with max_value := some d } else st) = some a := h
      cases hd : decode_stats_value mv0 t0 lt with
      | none =>
        rw [hd] at h
        cases h
      | some d =>
        rw [hd, Option.some_bind] at h
        show a.max_value = pickMax st.max_value d
        unfold pickMax
        cases hmv : st.max_value with
        | none =>
          replace h : some { st with max_value := some d } = some a := by
            rw [hmv] at h
            exact h
          have h2 := Option.some.inj h
          subst h2
          rfl
        | some cur =>
          replace h : ((pyLt cur d).map fun isGt =>
              if isGt then { st with max_value := some d } else st) = some a := by
            rw [hmv] at h
            exact h
          cases hp : pyLt cur d with
          | none =>
            rw [hp] at h
            cases h
          | some b =>
            rw [hp, Option.map_some'] at h
            have h2 := Option.some.inj h
            subst h2
            show (if b = true then ({ st with max_value := some d } : AggStats)
                else st).max_value
              = if (pyLt cur d).getD false = true then some d else some cur
            rw [hp]
            cases b
            · rw [if_neg (by decide), if_neg (by decide)]
              exact hmv
            · rw [if_pos (by decide), if_pos (by decide)]

theorem nullCand_none (m : MetaData) (hs : m.statistics = none) :
    nullCand m = none := by
  unfold nullCand
  rw [hs]
  rfl

theorem nullCand_some (m : MetaData) (s0 : Statistics)
    (hs : m.statistics = some s0) :
    nullCand m = if s0.truthy then s0.null_count else none := by
  unfold nullCand
  rw [hs]
  rfl

theorem minCand_stats_none (lt : Option LogicalType) (m : MetaData)
    (hs : m.statistics = none) : minCand lt m = none := by
  unfold minCand
  rw [hs]

theorem minCand_type_none (lt : Option LogicalType) (m : MetaData)
    (ht : m.type = none) : minCand lt m = none := by
  unfold minCand
  rw [ht]
  cases m.statistics <;> rfl

theorem minCand_some (lt : Option LogicalType) (m : MetaData) (s0 : Statistics)
    (t0 : PhysType) (hs : m.statistics = some s0) (ht : m.type = some t0) :
    minCand lt m
      = if s0.truthy then s0.min_value.bind (fun mv => decode_stats_value mv t0 lt)
        else none := by
  unfold minCand
  rw [hs, ht]

theorem maxCand_stats_none (lt : Option LogicalType) (m : MetaData)
    (hs : m.statistics = none) : maxCand lt m = none := by
  unfold maxCand
  rw [hs]

theorem maxCand_type_none (lt : Option LogicalType) (m : MetaData)
    (ht : m.type = none) : maxCand lt m = none := by
  unfold maxCand
  rw [ht]
  cases m.statistics <;> rfl

theorem maxCand_some (lt : Option LogicalType) (m : MetaData) (s0 : Statistics)
    (t0 : PhysType) (hs : m.statistics = some s0) (ht : m.type = some t0) :
    maxCand lt m
      = if s0.truthy then s0.max_value.bind (fun mv => decode_stats_value mv t0 lt)
        else none := by
  unfold maxCand
  rw [hs, ht]

theorem minExCand_none (m : MetaData) (hs : m.statistics = none) :
    minExCand m = none := by
  unfold minExCand
  rw [hs]
  rfl

theorem minExCand_some (m : MetaData) (s0 : Statistics)
    (hs : m.statistics = some s0) :
    minExCand m = if s0.truthy then s0.is_min_value_exact else none := by
  unfold minExCand
  rw [hs]
  rfl

theorem maxExCand_none (m : MetaData) (hs : m.statistics = none) :
    maxExCand m = none := by
  unfold maxExCand
  rw [hs]
  rfl

theorem maxExCand_some (m : MetaData) (s0 : Statistics)
    (hs : m.statistics = some s0) :
    maxExCand m = if s0.truthy then s0.is_max_value_exact else none := by
  unfold maxExCand
  rw [hs]
  rfl

theorem accumStatsM_null (lt : Option LogicalType) (t : Option PhysType)
    (st : Option AggStats) (s : Statistics) (a : AggStats)
    (h : accumStatsM lt t st s = some a) :
    a.null_count
      = match s.null_count with
        | some nc => some ((st.bind AggStats.null_count).getD 0 + nc)
        | none => st.bind AggStats.null_count := by
  unfold accumStatsM at h
  obtain ⟨a1, ha1, h2⟩ := Option.bind_eq_some.mp h
  obtain ⟨a2, ha2, rfl⟩ := Option.map_eq_some'.mp h2
  simp only [updMaxEx_null, updMinEx_null, (updMaxM_some_shape _ _ _ _ _ ha2).1,
    (updMinM_some_shape _ _ _ _ _ ha1).1, updNull_null, getD_null]

theorem accumStatsM_min (lt : Option LogicalType) (t : Option PhysType)
    (st : Option AggStats) (s : Statistics) (a : AggStats)
    (h : accumStatsM lt t st s = some a) :
    a.min_value
      = t.elim (st.bind AggStats.min_value)
          (fun t0 => (s.min_value).elim (st.bind AggStats.min_value)
            (fun mv0 => (decode_stats_value mv0 t0 lt).elim
              (st.bind AggStats.min_value)
              (pickMin (st.bind AggStats.min_value)))) := by
  unfold accumStatsM at h
  obtain ⟨a1, ha1, h2⟩ := Option.bind_eq_some.mp h
  obtain ⟨a2, ha2, rfl⟩ := Option.map_eq_some'.mp h2
  simp only [updMaxEx_min, updMinEx_min, (updMaxM_some_shape _ _ _ _ _ ha2).2.1,
    updMinM_some_min _ _ _ _ _ ha1, updNull_min, getD_min]

theorem accumStatsM_max (lt : Option LogicalType) (t : Option PhysType)
    (st : Option AggStats) (s : Statistics) (a : AggStats)
    (h : accumStatsM lt t st s = some a) :
    a.max_value
      = t.elim (st.bind AggStats.max_value)
          (fun t0 => (s.max_value).elim (st.bind AggStats.max_value)
            (fun mv0 => (decode_stats_value mv0 t0 lt).elim
              (st.bind AggStats.max_value)
              (pickMax (st.bind AggStats.max_value)))) := by
  unfold accumStatsM at h
  obtain ⟨a1, ha1, h2⟩ := Option.bind_eq_some.mp h
  obtain ⟨a2, ha2, rfl⟩ := Option.map_eq_some'.mp h2
  simp only [updMaxEx_max, updMinEx_max, updMaxM_some_max _ _ _ _ _ ha2,
    (updMinM_some_shape _ _ _ _ _ ha1).2.1, updNull_max, getD_max]

theorem accumStatsM_minEx (lt : Option LogicalType) (t : Option PhysType)
    (st : Option AggStats) (s : Statistics) (a : AggStats)
    (h : accumStatsM lt t st s = some a) :
    a.is_min_value_exact
      = match s.is_min_value_exact with
        | some e0 =>
          some ((st.bind AggStats.is_min_value_exact).getD true && e0)
        | none => st.bind AggStats.is_min_value_exact := by
  unfold accumStatsM at h
  obtain ⟨a1, ha1, h2⟩ := Option.bind_eq_some.mp h
  obtain ⟨a2, ha2, rfl⟩ := Option.map_eq_some'.mp h2
  simp only [updMaxEx_minEx, updMinEx_minEx,
    (updMaxM_some_shape _ _ _ _ _ ha2).2.2.1,
    (updMinM_some_shape _ _ _ _ _ ha1).2.2.1, updNull_minEx, getD_minEx]

theorem accumStatsM_maxEx (lt : Option LogicalType) (t : Option PhysType)
    (st : Option AggStats) (s : Statistics) (a : AggStats)
    (h : accumStatsM lt t st s = some a) :
    a.is_max_value_exact
      = match s.is_max_value_exact with
        | some e0 =>
          some ((st.bind AggStats.is_max_value_exact).getD true && e0)
        | none => st.bind AggStats.is_max_value_exact := by
  unfold accumStatsM at h
  obtain ⟨a1, ha1, h2⟩ := Option.bind_eq_some.mp h
  obtain ⟨a2, ha2, rfl⟩ := Option.map_eq_some'.mp h2
  simp only [updMaxEx_maxEx, updMinEx_maxEx,
    (updMaxM_some_shape _ _ _ _ _ ha2).2.2.2,
    (updMinM_some_shape _ _ _ _ _ ha1).2.2.2, updNull_maxEx, getD_maxEx]

/-! ### Statistics folds on the success path -/

theorem statsFoldM_null (lt : Option LogicalType) (ms : List MetaData) :
    ∀ (st r : Option AggStats),
      ms.foldl (statsStepO lt) (some st) = some r →
      r.bind AggStats.null_count
        = (nullCounts ms).foldl (fun a2 nc => some (a2.getD 0 + nc))
            (st.bind AggStats.null_count) := by
  induction ms with
  | nil =>
    intro st r h
    rw [← Option.some.inj h]
    rfl
  | cons m t2 ih =>
    intro st r h
    rw [List.foldl_cons] at h
    unfold nullCounts
    rw [List.filterMap_cons]
    cases hstep : stStep1 lt st m with
    | none =>
      rw [show statsStepO lt (some st) m = none from hstep] at h
      rw [foldl_statsStepO_none] at h
      cases h
    | some st1 =>
      rw [show statsStepO lt (some st) m = some st1 from hstep] at h
      unfold stStep1 at hstep
      cases hs : m.statistics with
      | none =>
        rw [hs] at hstep
        have hst := Option.some.inj hstep
        subst hst
        rw [nullCand_none m hs]
        exact ih st r h
      | some s0 =>
        rw [hs] at hstep
        replace hstep : (if s0.truthy = true
            then Option.map some (accumStatsM lt m.type st s0)
            else some st) = some st1 := hstep
        by_cases htr : s0.truthy = true
        · rw [if_pos htr] at hstep
          obtain ⟨a, ha, hsome⟩ := Option.map_eq_some'.mp hstep
          subst hsome
          have hrec := ih (some a) r h
          rw [hrec]
          rw [show (some a).bind AggStats.null_count = a.null_count from rfl]
          rw [accumStatsM_null lt m.type st s0 a ha]
          rw [nullCand_some m s0 hs, if_pos htr]
          cases s0.null_count <;> rfl
        · rw [if_neg htr] at hstep
          have hst := Option.some.inj hstep
          subst hst
          rw [nullCand_some m s0 hs, if_neg htr]
          exact ih st r h

theorem statsFoldM_min (lt : Option LogicalType) (ms : List MetaData) :
    ∀ (st r : Option AggStats),
      ms.foldl (statsStepO lt) (some st) = some r →
      r.bind AggStats.min_value
        = (minCandidates lt ms).foldl pickMin (st.bind AggStats.min_value) := by
  induction ms with
  | nil =>
    intro st r h
    rw [← Option.some.inj h]
    rfl
  | cons m t2 ih =>
    intro st r h
    rw [List.foldl_cons] at h
    unfold minCandidates
    rw [List.filterMap_cons]
    cases hstep : stStep1 lt st m with
    | none =>
      rw [show statsStepO lt (some st) m = none from hstep] at h
      rw [foldl_statsStepO_none] at h
      cases h
    | some st1 =>
      rw [show statsStepO lt (some st) m = some st1 from hstep] at h
      unfold stStep1 at hstep
      cases hs : m.statistics with
      | none =>
        rw [hs] at hstep
        have hst := Option.some.inj hstep
        subst hst
        rw [minCand_stats_none lt m hs]
        exact ih st r h
      | some s0 =>
        rw [hs] at hstep
        replace hstep : (if s0.truthy = true
            then Option.map some (accumStatsM lt m.type st s0)
            else some st) = some st1 := hstep
        by_cases htr : s0.truthy = true
        · rw [if_pos htr] at hstep
          obtain ⟨a, ha, hsome⟩ := Option.map_eq_some'.mp hstep
          subst hsome
          have hrec := ih (some a) r h
          rw [hrec]
          rw [show (some a).bind AggStats.min_value = a.min_value from rfl]
          rw [accumStatsM_min lt m.type st s0 a ha]
          cases ht : m.type with
          | none =>
            rw [minCand_type_none lt m ht]
            rfl
          | some t0 =>
            rw [minCand_some lt m s0 t0 hs ht, if_pos htr]
            cases hmv : s0.min_value with
            | none => rfl
            | some mv0 =>
              simp only [Option.some_bind, Option.elim_some]
              cases hdec : decode_stats_value mv0 t0 lt with
              | none => rfl
              | some d => rfl
        · rw [if_neg htr] at hstep
          have hst := Option.some.inj hstep
          subst hst
          cases ht : m.type with
          | none =>
            rw [minCand_type_none lt m ht]
            exact ih st r h
          | some t0 =>
            rw [minCand_some lt m s0 t0 hs ht, if_neg htr]
            exact ih st r h

theorem statsFoldM_max (lt : Option LogicalType) (ms : List MetaData) :
    ∀ (st r : Option AggStats),
      ms.foldl (statsStepO lt) (some st) = some r →
      r.bind AggStats.max_value
        = (maxCandidates lt ms).foldl pickMax (st.bind AggStats.max_value) := by
  induction ms with
  | nil =>
    intro st r h
    rw [← Option.some.inj h]
    rfl
  | cons m t2 ih =>
    intro st r h
    rw [List.foldl_cons] at h
    unfold maxCandidates
    rw [List.filterMap_cons]
    cases hstep : stStep1 lt st m with
    | none =>
      rw [show statsStepO lt (some st) m = none from hstep] at h
      rw [foldl_statsStepO_none] at h
      cases h
    | some st1 =>
      rw [show statsStepO lt (some st) m = some st1 from hstep] at h
      unfold stStep1 at hstep
      cases hs : m.statistics with
      | none =>
        rw [hs] at hstep
        have hst := Option.some.inj hstep
        subst hst
        rw [maxCand_stats_none lt m hs]
        exact ih st r h
      | some s0 =>
        rw [hs] at hstep
        replace hstep : (if s0.truthy = true
            then Option.map some (accumStatsM lt m.type st s0)
            else some st) = some st1 := hstep
        by_cases htr : s0.truthy = true
        · rw [if_pos htr] at hstep
          obtain ⟨a, ha, hsome⟩ := Option.map_eq_some'.mp hstep
          subst hsome
          have hrec := ih (some a) r h
          rw [hrec]
          rw [show (some a).bind AggStats.max_value = a.max_value from rfl]
          rw [accumStatsM_max lt m.type st s0 a ha]
          cases ht : m.type with
          | none =>
            rw [maxCand_type_none lt m ht]
            rfl
          | some t0 =>
            rw [maxCand_some lt m s0 t0 hs ht, if_pos htr]
            cases hmv : s0.max_value with
            | none => rfl
            | some mv0 =>
              simp only [Option.some_bind, Option.elim_some]
              cases hdec : decode_stats_value mv0 t0 lt with
              | none => rfl
              | some d => rfl
        · rw [if_neg htr] at hstep
          have hst := Option.some.inj hstep
          subst hst
          cases ht : m.type with
          | none =>
            rw [maxCand_type_none lt m ht]
            exact ih st r h
          | some t0 =>
            rw [maxCand_some lt m s0 t0 hs ht, if_neg htr]
            exact ih st r h

theorem statsFoldM_minEx (lt : Option LogicalType) (ms : List MetaData) :
    ∀ (st r : Option AggStats),
      ms.foldl (statsStepO lt) (some st) = some r →
      r.bind AggStats.is_min_value_exact
        = (minExactFlags ms).foldl (fun a2 b => some (a2.getD true && b))
            (st.bind AggStats.is_min_value_exact) := by
  induction ms with
  | nil =>
    intro st r h
    rw [← Option.some.inj h]
    rfl
  | cons m t2 ih =>
    intro st r h
    rw [List.foldl_cons] at h
    unfold minExactFlags
    rw [List.filterMap_cons]
    cases hstep : stStep1 lt st m with
    | none =>
      rw [show statsStepO lt (some st) m = none from hstep] at h
      rw [foldl_statsStepO_none] at h
      cases h
    | some st1 =>
      rw [show statsStepO lt (some st) m = some st1 from hstep] at h
      unfold stStep1 at hstep
      cases hs : m.statistics with
      | none =>
        rw [hs] at hstep
        have hst := Option.some.inj hstep
        subst hst
        rw [minExCand_none m hs]
        exact ih st r h
      | some s0 =>
        rw [hs] at hstep
        replace hstep : (if s0.truthy = true
            then Option.map some (accumStatsM lt m.type st s0)
            else some st) = some st1 := hstep
        by_cases htr : s0.truthy = true
        · rw [if_pos htr] at hstep
          obtain ⟨a, ha, hsome⟩ := Option.map_eq_some'.mp hstep
          subst hsome
          have hrec := ih (some a) r h
          rw [hrec]
          rw [show (some a).bind AggStats.is_min_value_exact
            = a.is_min_value_exact from rfl]
          rw [accumStatsM_minEx lt m.type st s0 a ha]
          rw [minExCand_some m s0 hs, if_pos htr]
          cases s0.is_min_value_exact <;> rfl
        · rw [if_neg htr] at hstep
          have hst := Option.some.inj hstep
          subst hst
          rw [minExCand_some m s0 hs, if_neg htr]
          exact ih st r h

theorem statsFoldM_maxEx (lt : Option LogicalType) (ms : List MetaData) :
    ∀ (st r : Option AggStats),
      ms.foldl (statsStepO lt) (some st) = some r →
      r.bind AggStats.is_max_value_exact
        = (maxExactFlags ms).foldl (fun a2 b => some (a2.getD true && b))
            (st.bind AggStats.is_max_value_exact) := by
  induction ms with
  | nil =>
    intro st r h
    rw [← Option.some.inj h]
    rfl
  | cons m t2 ih =>
    intro st r h
    rw [List.foldl_cons] at h
    unfold maxExactFlags
    rw [List.filterMap_cons]
    cases hstep : stStep1 lt st m with
    | none =>
      rw [show statsStepO lt (some st) m = none from hstep] at h
      rw [foldl_statsStepO_none] at h
      cases h
    | some st1 =>
      rw [show statsStepO lt (some st) m = some st1 from hstep] at h
      unfold stStep1 at hstep
      cases hs : m.statistics with
      | none =>
        rw [hs] at hstep
        have hst := Option.some.inj hstep
        subst hst
        rw [maxExCand_none m hs]
        exact ih st r h
      | some s0 =>
        rw [hs] at hstep
        replace hstep : (if s0.truthy = true
            then Option.map some (accumStatsM lt m.type st s0)
            else some st) = some st1 := hstep
        by_cases htr : s0.truthy = true
        · rw [if_pos htr] at hstep
          obtain ⟨a, ha, hsome⟩ := Option.map_eq_some'.mp hstep
          subst hsome
          have hrec := ih (some a) r h
          rw [hrec]
          rw [show (some a).bind AggStats.is_max_value_exact
            = a.is_max_value_exact from rfl]
          rw [accumStatsM_maxEx lt m.type st s0 a ha]
          rw [maxExCand_some m s0 hs, if_pos htr]
          cases s0.is_max_value_exact <;> rfl
        · rw [if_neg htr] at hstep
          have hst := Option.some.inj hstep
          subst hst
          rw [maxExCand_some m s0 hs, if_neg htr]
          exact ih st r h

/-! ### Folding candidates into sums and ANDs -/

theorem foldNC_some (l : List Int) : ∀ a : Int,
    l.foldl (fun x nc => some (x.getD 0 + nc)) (some a) = some (a + l.sum) := by
  induction l with
  | nil => intro a; simp
  | cons nc rest ih =>
    intro a
    rw [List.foldl_cons]
    show rest.foldl (fun x nc => some (x.getD 0 + nc)) (some (a + nc)) = _
    rw [ih, List.sum_cons]
    congr 1
    ring

theorem foldNC_none (l : List Int) :
    l.foldl (fun x nc => some (x.getD 0 + nc)) none
      = if l.isEmpty then none else some l.sum := by
  cases l with
  | nil => rfl
  | cons nc rest =>
    rw [List.foldl_cons]
    show rest.foldl (fun x nc => some (x.getD 0 + nc)) (some (0 + nc)) = _
    rw [foldNC_some, List.sum_cons]
    simp only [List.isEmpty_cons, if_neg Bool.false_ne_true]
    congr 1
    ring

theorem foldEx_some (l : List Bool) : ∀ a : Bool,
    l.foldl (fun x b => some (x.getD true && b)) (some a) = some (a && l.all id) := by
  induction l with
  | nil => intro a; simp
  | cons b rest ih =>
    intro a
    rw [List.foldl_cons]
    show rest.foldl (fun x b => some (x.getD true && b)) (some (a && b)) = _
    rw [ih, List.all_cons]
    simp [Bool.and_assoc]

theorem foldEx_none (l : List Bool) :
    l.foldl (fun x b => some (x.getD true && b)) none
      = if l.isEmpty then none else some (l.all id) := by
  cases l with
  | nil => rfl
  | cons b rest =>
    rw [List.foldl_cons]
    show rest.foldl (fun x b => some (x.getD true && b)) (some (true && b)) = _
    rw [foldEx_some, List.all_cons]
    simp

/-! ### Concrete inputs for the C3 counterexample and witness -/

/-- A chunk whose truthy statistics hold a 3-byte FLOAT `min_value`:
`struct.unpack("<f", ...)` raises `struct.error` on it. -/
def mdCE1 : MetaData :=
  { defaultMd with
    path_in_schema := some ["c"]
    type := some PhysType.FLOAT
    statistics := some ⟨none, some [0, 0, 0], none, none, none, none⟩ }

def fCE1 : Footer := ⟨[⟨[⟨some mdCE1, none, none⟩]⟩]⟩

/-- Two same-path chunks of different physical types: the first stores a
`bytes` minimum, the second an `int`; CPython raises `TypeError` on
`int < bytes`. -/
def mdCE2a : MetaData :=
  { defaultMd with
    path_in_schema := some ["d"]
    type := some PhysType.BYTE_ARRAY
    statistics := some ⟨none, some [65], none, none, none, none⟩ }

def mdCE2b : MetaData :=
  { defaultMd with
    path_in_schema := some ["d"]
    type := some PhysType.INT32
    statistics := some ⟨none, some [1, 0, 0, 0], none, none, none, none⟩ }

def fCE2 : Footer := ⟨[⟨[⟨some mdCE2a, none, none⟩, ⟨some mdCE2b, none, none⟩]⟩]⟩

def mdW1 : MetaData :=
  { defaultMd with
    path_in_schema := some ["c"]
    type := some PhysType.INT32
    num_values := some 10
    total_uncompressed_size := some 100
    total_compressed_size := some 80
    encodings := ["PLAIN"]
    statistics := some ⟨some 1, some [5, 0, 0, 0], some [9, 0, 0, 0],
      some true, some true, none⟩
    codec := some "SNAPPY" }

def mdW2 : MetaData :=
  { defaultMd with
    path_in_schema := some ["c"]
    type := some PhysType.INT32
    num_values := some 7
    statistics := some ⟨some 2, some [3, 0, 0, 0], some [7, 0, 0, 0],
      some true, some false, none⟩ }

def lW : List (List String × MetaData) := [(["c"], mdW1), (["c"], mdW2)]

/-- The aggregate entry that `specEntryM` produces on the witness data. -/
def cW : ColAgg :=
  { path_in_schema := ["c"]
    type := some PhysType.INT32
    type_length := none
    num_values := 17
    total_uncompressed_size := 100
    total_compressed_size := 80
    encodings := ["PLAIN"]
    encoding_stats := []
    codecs := [some "SNAPPY", none]
    statistics := some ⟨some 3, some (.int 3), some (.int 9), some true, some false⟩ }

end ParquetAnalyzer
